import Mathlib

/-!
# LRU-K replacer (`src/buffer/lru_k_replacer.cpp`)

A shallow embedding of `bustub::LRUKReplacer` and the properties of its
eviction order, its evictable counter and its error paths.

Conventions of the embedding.

* `std::list<frame_id_t>` is a `List Int` whose head is `begin()`:
  `push_front` is a cons, and the reverse iteration of `Evict`
  (`rbegin()` to `rend()`) walks the reversed list.
* `access_count_` and `evict_map_` are only ever touched through `operator[]`,
  which value-initialises an absent key.  What a caller can observe of such a
  map is exactly a total function with default `0` / `false`, which is how
  they are represented.
* `node_store_` and `buffer_store_` map a frame to the list iterator obtained
  from `begin()` right after the `push_front` of that frame.  List iterators
  stay valid until their own node is erased, and every erase in the source is
  followed by the removal or the reassignment of the same key, so the iterator
  held under a present key designates the front-most node carrying that frame.
  The embedding keeps the key set (`Int → Bool`) and erases the front-most
  occurrence (`List.erase`).  Reading an absent key with `operator[]` yields a
  value-initialised (singular) iterator, and `std::list::erase` on it has
  undefined behaviour: that outcome is `Result.undefined`.
* `curr_size_` is a `size_t`: increments and decrements are taken modulo `2^64`.
  `access_count_[id]++` would need `2^64` calls to wrap and is left unbounded.
* Every operation on the state is one atomic step.  What the member functions
  do with the mutex `latch_` is described apart, by `Method.actions`, and
  interleaved by `Threads.step`.
-/

namespace bustub

/-- Modelled from the spec: `frame_id_t` is declared in the absent header
`common/config.h`; a frame identity is an integer handle.  The source compares
it with `static_cast<int>(replacer_size_)`, so it is a signed integer. -/
abbrev frame_id_t := Int

/-- Modelled from the spec: width of the absent `frame_id_t` declaration, a
signed 32-bit integer; `isFrameId f` says that `f` is a value of that type. -/
def isFrameId (f : frame_id_t) : Prop := -2147483648 ≤ f ∧ f < 2147483648

instance (f : frame_id_t) : Decidable (isFrameId f) := by
  unfold isFrameId; exact inferInstance

/-- Modelled from the spec: the default member initialiser of `curr_size_` lives
in the absent header `buffer/lru_k_replacer.h`; the evictable count of a fresh
replacer is zero. -/
def curr_size_init : Nat := 0

/-- State of an `LRUKReplacer` instance: the data members used by
`lru_k_replacer.cpp`. -/
structure LRUKReplacer where
  /-- Cold Queue, `begin()` first. -/
  node_list_ : List frame_id_t
  /-- Key set of the position map of the Cold Queue. -/
  node_store_ : frame_id_t → Bool
  /-- Warm Queue, `begin()` first. -/
  buffer_list_ : List frame_id_t
  /-- Key set of the position map of the Warm Queue. -/
  buffer_store_ : frame_id_t → Bool
  access_count_ : frame_id_t → Nat
  evict_map_ : frame_id_t → Bool
  curr_size_ : Nat
  replacer_size_ : Nat
  k_ : Nat

/-- Assignment `m[k] = v` on a map seen as a total function. -/
def assign {V : Type} (m : frame_id_t → V) (k : frame_id_t) (v : V) : frame_id_t → V :=
  fun x => if x = k then v else m x

/-- Increment `++` of a `size_t`. -/
def inc64 (n : Nat) : Nat := (n + 1) % 18446744073709551616

/-- Decrement `--` of a `size_t` (wraps from `0` to `2^64 - 1`). -/
def dec64 (n : Nat) : Nat := (n + 18446744073709551615) % 18446744073709551616

/-- Conversion `static_cast<int>(n)` of a `size_t` to a 32-bit `int`. -/
def static_cast_int (n : Nat) : Int :=
  (((n + 2147483648) % 4294967296 : Nat) : Int) - 2147483648

/-- How a call ends. -/
inductive Result (α : Type) where
  /-- Normal return, with the state after the call and the value returned. -/
  | ok (s : LRUKReplacer) (ret : α)
  /-- The call threw `std::exception`; `s` is the state at the throw. -/
  | exception (s : LRUKReplacer)
  /-- The call erased through a singular iterator (undefined behaviour). -/
  | undefined

/-- Constructor `LRUKReplacer(num_frames, k)`: empty containers. -/
def LRUKReplacer.new (num_frames k : Nat) : LRUKReplacer where
  node_list_ := []
  node_store_ := fun _ => false
  buffer_list_ := []
  buffer_store_ := fun _ => false
  access_count_ := fun _ => 0
  evict_map_ := fun _ => false
  curr_size_ := curr_size_init
  replacer_size_ := num_frames
  k_ := k

/-- The loop header and test shared by both loops of `Evict`: walk the given
sequence (the reversed list) and stop at the first `id` with `evict_map_[id]`. -/
def scan (evict_map_ : frame_id_t → Bool) : List frame_id_t → Option frame_id_t
  | [] => none
  | id :: rest => if evict_map_ id then some id else scan evict_map_ rest

/-- Embedding of `LRUKReplacer::Evict`.  The value returned is the content of
the output slot `*frame_id`: `some id` when the call returns `true`, `none`
(slot not written) when it returns `false`. -/
def Evict (s : LRUKReplacer) : Result (Option frame_id_t) :=
  if s.curr_size_ = 0 then .ok s none
  else
    match scan s.evict_map_ s.node_list_.reverse with
    | some id =>
      if s.node_store_ id then
        .ok { s with
              node_list_ := s.node_list_.erase id
              node_store_ := assign s.node_store_ id false
              evict_map_ := assign s.evict_map_ id false
              access_count_ := assign s.access_count_ id 0
              curr_size_ := dec64 s.curr_size_ } (some id)
      else .undefined
    | none =>
      match scan s.evict_map_ s.buffer_list_.reverse with
      | some id =>
        if s.buffer_store_ id then
          .ok { s with
                buffer_list_ := s.buffer_list_.erase id
                buffer_store_ := assign s.buffer_store_ id false
                evict_map_ := assign s.evict_map_ id false
                access_count_ := assign s.access_count_ id 0
                curr_size_ := dec64 s.curr_size_ } (some id)
        else .undefined
      | none => .ok s none

/-- Embedding of `LRUKReplacer::RecordAccess` (the unused `access_type`
argument is dropped). -/
def RecordAccess (s : LRUKReplacer) (frame_id : frame_id_t) : Result Unit :=
  if frame_id > static_cast_int s.replacer_size_ then .exception s
  else
    let access_count_ := assign s.access_count_ frame_id (s.access_count_ frame_id + 1)
    if access_count_ frame_id = s.k_ then
      if s.node_store_ frame_id then
        .ok { s with
              access_count_ := access_count_
              node_list_ := s.node_list_.erase frame_id
              node_store_ := assign s.node_store_ frame_id false
              buffer_list_ := frame_id :: s.buffer_list_
              buffer_store_ := assign s.buffer_store_ frame_id true } ()
      else .undefined
    else if access_count_ frame_id < s.k_ then
      if s.node_store_ frame_id = false then
        .ok { s with
              access_count_ := access_count_
              node_list_ := frame_id :: s.node_list_
              node_store_ := assign s.node_store_ frame_id true } ()
      else .ok { s with access_count_ := access_count_ } ()
    else
      if s.buffer_store_ frame_id then
        .ok { s with
              access_count_ := access_count_
              buffer_list_ := frame_id :: s.buffer_list_.erase frame_id
              buffer_store_ := assign s.buffer_store_ frame_id true } ()
      else .undefined

/-- Embedding of `LRUKReplacer::SetEvictable`. -/
def SetEvictable (s : LRUKReplacer) (frame_id : frame_id_t) (set_evictable : Bool) :
    LRUKReplacer :=
  let s1 : LRUKReplacer :=
    if (!s.evict_map_ frame_id) && set_evictable then
      { s with curr_size_ := inc64 s.curr_size_ } else s
  let s2 : LRUKReplacer :=
    if s1.evict_map_ frame_id && !set_evictable then
      { s1 with curr_size_ := dec64 s1.curr_size_ } else s1
  { s2 with evict_map_ := assign s2.evict_map_ frame_id set_evictable }

/-- Embedding of `LRUKReplacer::Remove`. -/
def Remove (s : LRUKReplacer) (frame_id : frame_id_t) : Result Unit :=
  let count := s.access_count_ frame_id
  if count = 0 then .ok s ()
  else if !s.evict_map_ frame_id then .exception s
  else if count < s.k_ then
    if s.node_store_ frame_id then
      .ok { s with
            node_list_ := s.node_list_.erase frame_id
            node_store_ := assign s.node_store_ frame_id false
            evict_map_ := assign s.evict_map_ frame_id false
            access_count_ := assign s.access_count_ frame_id 0
            curr_size_ := dec64 s.curr_size_ } ()
    else .undefined
  else
    if s.buffer_store_ frame_id then
      .ok { s with
            buffer_list_ := s.buffer_list_.erase frame_id
            buffer_store_ := assign s.buffer_store_ frame_id false
            evict_map_ := assign s.evict_map_ frame_id false
            access_count_ := assign s.access_count_ frame_id 0
            curr_size_ := dec64 s.curr_size_ } ()
    else .undefined

/-- Embedding of `LRUKReplacer::Size`. -/
def Size (s : LRUKReplacer) : Nat := s.curr_size_

/-! ## Call sequences -/

/-- One call on the public interface. -/
inductive Op where
  | RecordAccess (frame_id : frame_id_t)
  | SetEvictable (frame_id : frame_id_t) (set_evictable : Bool)
  | Evict
  | Remove (frame_id : frame_id_t)

/-- The arguments of the call are values of `frame_id_t`. -/
def Op.wf : Op → Prop
  | .RecordAccess f => isFrameId f
  | .SetEvictable f _ => isFrameId f
  | .Evict => True
  | .Remove f => isFrameId f

instance (op : Op) : Decidable op.wf := by
  cases op <;> (unfold Op.wf; exact inferInstance)

/-- State left behind by a call, be it a normal return or a throw; `none` when
the call has undefined behaviour. -/
def Result.after {α : Type} : Result α → Option LRUKReplacer
  | .ok s _ => some s
  | .exception s => some s
  | .undefined => none

/-- Value returned by a call that returns normally. -/
def Result.ret {α : Type} : Result α → Option α
  | .ok _ r => some r
  | .exception _ => none
  | .undefined => none

/-- State after one call. -/
def step (s : LRUKReplacer) : Op → Option LRUKReplacer
  | .RecordAccess f => (RecordAccess s f).after
  | .SetEvictable f b => some (SetEvictable s f b)
  | .Evict => (Evict s).after
  | .Remove f => (Remove s f).after

/-- State after a sequence of calls, oldest call first. -/
def run (s : LRUKReplacer) : List Op → Option LRUKReplacer
  | [] => some s
  | op :: ops => (step s op).bind (fun s1 => run s1 ops)

/-- States a replacer built by `LRUKReplacer(num_frames, k)` can be in after
some sequence of calls (failing ones included) with `frame_id_t` arguments. -/
def Reachable (num_frames k : Nat) (s : LRUKReplacer) : Prop :=
  ∃ ops : List Op, (∀ op ∈ ops, op.wf) ∧ run (LRUKReplacer.new num_frames k) ops = some s

/-! ## Quantities the properties are stated with -/

/-- All values of `frame_id_t`. -/
def frameIds : Finset frame_id_t := Finset.Ico (-2147483648) 2147483648

/-- Number of frames whose entry in a boolean map is `true`. -/
def countTrue (m : frame_id_t → Bool) : Nat :=
  (frameIds.filter (fun f => m f = true)).card

/-- Number of frames whose `EvictableFlag` is `true`. -/
def evictableCount (s : LRUKReplacer) : Nat := countTrue s.evict_map_

/-- Number of entries of the Cold and Warm Queues whose `EvictableFlag` is `true`. -/
def queueEvictableCount (s : LRUKReplacer) : Nat :=
  (s.node_list_ ++ s.buffer_list_).countP (fun f => s.evict_map_ f)

/-- Number of frames flagged evictable that have no recorded access. -/
def untrackedEvictableCount (s : LRUKReplacer) : Nat :=
  countTrue (fun f => s.evict_map_ f && decide (s.access_count_ f = 0))

/-- State after the successful removal of `id` from the Cold Queue (the common
tail of `Evict` and `Remove`). -/
def dropCold (s : LRUKReplacer) (id : frame_id_t) : LRUKReplacer :=
  { s with
    node_list_ := s.node_list_.erase id
    node_store_ := assign s.node_store_ id false
    evict_map_ := assign s.evict_map_ id false
    access_count_ := assign s.access_count_ id 0
    curr_size_ := dec64 s.curr_size_ }

/-- State after the successful removal of `id` from the Warm Queue. -/
def dropWarm (s : LRUKReplacer) (id : frame_id_t) : LRUKReplacer :=
  { s with
    buffer_list_ := s.buffer_list_.erase id
    buffer_store_ := assign s.buffer_store_ id false
    evict_map_ := assign s.evict_map_ id false
    access_count_ := assign s.access_count_ id 0
    curr_size_ := dec64 s.curr_size_ }

/-- Representation invariant of the replacer. -/
structure Inv (num_frames k : Nat) (s : LRUKReplacer) : Prop where
  k_eq : s.k_ = k
  size_eq : s.replacer_size_ = num_frames
  cold : ∀ f, f ∈ s.node_list_ ↔ 0 < s.access_count_ f ∧ s.access_count_ f < s.k_
  warm : ∀ f, f ∈ s.buffer_list_ ↔ 0 < s.access_count_ f ∧ s.k_ ≤ s.access_count_ f
  node_keys : ∀ f, s.node_store_ f = true ↔ f ∈ s.node_list_
  buffer_keys : ∀ f, s.buffer_store_ f = true ↔ f ∈ s.buffer_list_
  node_nodup : s.node_list_.Nodup
  buffer_nodup : s.buffer_list_.Nodup
  flag_range : ∀ f, s.evict_map_ f = true → isFrameId f
  accepted : ∀ f, 0 < s.access_count_ f → ¬ f > static_cast_int s.replacer_size_
  size : s.curr_size_ = evictableCount s

/-! ## Call sequences with access times -/

/-- A replacer together with the history the ordering properties speak about:
the number of calls made so far (`clock`), and for each frame the time of the
`RecordAccess` that introduced it (the one that found its access count at 0) and
the time of its most recent successful `RecordAccess`. -/
structure Traced where
  state : LRUKReplacer
  clock : Nat
  first_access : frame_id_t → Nat
  last_access : frame_id_t → Nat

/-- A fresh replacer with an empty history. -/
def Traced.new (num_frames k : Nat) : Traced where
  state := LRUKReplacer.new num_frames k
  clock := 0
  first_access := fun _ => 0
  last_access := fun _ => 0

/-- One call, with the history updated. -/
def Traced.step (t : Traced) : Op → Option Traced
  | .RecordAccess f =>
    match RecordAccess t.state f with
    | .ok s1 _ =>
      some { state := s1
             clock := t.clock + 1
             first_access :=
               if t.state.access_count_ f = 0 then assign t.first_access f t.clock
               else t.first_access
             last_access := assign t.last_access f t.clock }
    | .exception s1 => some { t with state := s1, clock := t.clock + 1 }
    | .undefined => none
  | .SetEvictable f b =>
    some { t with state := SetEvictable t.state f b, clock := t.clock + 1 }
  | .Evict => (Evict t.state).after.map (fun s1 => { t with state := s1, clock := t.clock + 1 })
  | .Remove f =>
    (Remove t.state f).after.map (fun s1 => { t with state := s1, clock := t.clock + 1 })

/-- A sequence of calls, oldest first, with the history updated. -/
def trace (t : Traced) : List Op → Option Traced
  | [] => some t
  | op :: ops => (t.step op).bind (fun t1 => trace t1 ops)

/-- Ordering invariant: the Cold Queue is ordered by introduction time and the
Warm Queue by time of the most recent access, newest at `begin()`. -/
structure TInv (t : Traced) : Prop where
  cold_sorted : t.state.node_list_.Pairwise (fun x y => t.first_access y < t.first_access x)
  warm_sorted : t.state.buffer_list_.Pairwise (fun x y => t.last_access y < t.last_access x)
  cold_lt : ∀ f ∈ t.state.node_list_, t.first_access f < t.clock
  warm_lt : ∀ f ∈ t.state.buffer_list_, t.last_access f < t.clock

/-- Access counts after `access_count_[frame_id]++`. -/
def bump (s : LRUKReplacer) (f : frame_id_t) : frame_id_t → Nat :=
  assign s.access_count_ f (s.access_count_ f + 1)

/-! ## Example states -/

/-- The scenario of the specification with `K = 2`: access 1, access 2, access 1
again, then mark 1 and 2 evictable. -/
def scenarioOps : List Op :=
  [.RecordAccess 1, .RecordAccess 2, .RecordAccess 1, .SetEvictable 1 true, .SetEvictable 2 true]

/-- State reached by `scenarioOps` on a replacer of 7 frames with `K = 2`. -/
def scenarioState : LRUKReplacer :=
  (run (LRUKReplacer.new 7 2) scenarioOps).getD (LRUKReplacer.new 7 2)

/-- Two Cold frames with `K = 3`: frame 1 is introduced before frame 2 and
accessed again after it; both are then marked evictable. -/
def coldOps : List Op :=
  [.RecordAccess 1, .RecordAccess 2, .RecordAccess 1, .SetEvictable 1 true, .SetEvictable 2 true]

/-- History reached by `coldOps` on a replacer of 7 frames with `K = 3`. -/
def coldTrace : Traced := (trace (Traced.new 7 3) coldOps).getD (Traced.new 7 3)

/-- Two Warm frames with `K = 2`: frames 1 and 2 reach two accesses, then frame 1
is accessed once more; both are then marked evictable. -/
def warmOps : List Op :=
  [.RecordAccess 1, .RecordAccess 1, .RecordAccess 2, .RecordAccess 2, .RecordAccess 1,
   .SetEvictable 1 true, .SetEvictable 2 true]

/-- History reached by `warmOps` on a replacer of 7 frames with `K = 2`. -/
def warmTrace : Traced := (trace (Traced.new 7 2) warmOps).getD (Traced.new 7 2)

/-- A fresh replacer (7 frames, `K = 2`) on which frame 0, never accessed, has
been marked evictable. -/
def untrackedFlagState : LRUKReplacer := SetEvictable (LRUKReplacer.new 7 2) 0 true

/-- A replacer (7 frames, `K = 2`) on which frame 1 has been accessed once and
not marked evictable. -/
def pinnedState : LRUKReplacer :=
  (run (LRUKReplacer.new 7 2) [.RecordAccess 1]).getD (LRUKReplacer.new 7 2)

/-- State after `c ≥ 1` accesses of a frame `f` that was untracked in `s`: `f` is
at the front of the Cold Queue while `c < K` and at the front of the Warm Queue
from the `K`-th access on. -/
def afterAccesses (s : LRUKReplacer) (f : frame_id_t) (c : Nat) : LRUKReplacer :=
  if c < s.k_ then
    { s with
      access_count_ := assign s.access_count_ f c
      node_list_ := f :: s.node_list_
      node_store_ := assign s.node_store_ f true }
  else
    { s with
      access_count_ := assign s.access_count_ f c
      buffer_list_ := f :: s.buffer_list_
      buffer_store_ := assign s.buffer_store_ f true }

/-- Whether the call `op` made in state `s` is a successful `Evict` that returns
`F` or a `Remove(F)` that returns normally. -/
def removesFrame (s : LRUKReplacer) (F : frame_id_t) : Op → Bool
  | .Evict => decide ((Evict s).ret = some (some F))
  | .Remove f => decide (f = F) && (Remove s f).ret.isSome
  | _ => false

/-- No call of the sequence `ops`, run from `s`, removes `F`. -/
def keptAlong (F : frame_id_t) : LRUKReplacer → List Op → Bool
  | _, [] => true
  | s, op :: ops =>
    !removesFrame s F op &&
      match step s op with
      | some s1 => keptAlong F s1 ops
      | none => true

/-! ## Use of `latch_` -/

/-- The public member functions of `LRUKReplacer`. -/
inductive Method where
  | Evict
  | RecordAccess
  | SetEvictable
  | Remove
  | Size
  deriving DecidableEq

/-- What a call does as far as the mutex `latch_` is concerned. -/
inductive Action where
  /-- Construction of `std::lock_guard<std::mutex> lock(latch_)`. -/
  | lock
  /-- The reads and writes of the data members made by the body. -/
  | access
  /-- Destruction of the guard when the function returns or throws. -/
  | unlock
  deriving DecidableEq

/-- The body of each member function as a sequence of actions: `Evict` (source
line 21), `RecordAccess` (line 55), `SetEvictable` (line 86) and `Remove`
(line 97) open with a `std::lock_guard` on `latch_`; `Size` (line 120) is
`return curr_size_;` and nothing else. -/
def Method.actions : Method → List Action
  | .Evict => [.lock, .access, .unlock]
  | .RecordAccess => [.lock, .access, .unlock]
  | .SetEvictable => [.lock, .access, .unlock]
  | .Remove => [.lock, .access, .unlock]
  | .Size => [.access]

/-- Two threads, `false` and `true`, each inside one call on the same instance. -/
structure Threads where
  /-- The thread holding `latch_`, if any. -/
  latch_ : Option Bool
  /-- What remains to be done by thread `false`. -/
  first : List Action
  /-- What remains to be done by thread `true`. -/
  second : List Action
  /-- Whether some access was made while the other thread held `latch_`. -/
  overlap : Bool
  deriving DecidableEq

/-- Both threads at the start of their call. -/
def Threads.start (m1 m2 : Method) : Threads where
  latch_ := none
  first := m1.actions
  second := m2.actions
  overlap := false

/-- Thread `t` performs its next action; `none` when it has finished or is
blocked on `latch_`. -/
def Threads.step (c : Threads) (t : Bool) : Option Threads :=
  match (if t then c.second else c.first) with
  | [] => none
  | a :: rest =>
    let c1 : Threads := if t then { c with second := rest } else { c with first := rest }
    match a with
    | .lock => if c.latch_ = none then some { c1 with latch_ := some t } else none
    | .access => some { c1 with overlap := c.overlap || decide (c.latch_ = some (!t)) }
    | .unlock => some { c1 with latch_ := none }

/-- A schedule: the threads take steps in the given order. -/
def Threads.run (c : Threads) : List Bool → Option Threads
  | [] => some c
  | t :: ts => (c.step t).bind (fun c1 => c1.run ts)

/-- What can remain of the body of a locking member function. -/
def lockedSuffixes : List (List Action) :=
  [[.lock, .access, .unlock], [.access, .unlock], [.unlock], []]

/-- Whether a thread with this much left to do holds `latch_`. -/
def holdsLatch (l : List Action) : Bool :=
  decide (l = [.access, .unlock]) || decide (l = [.unlock])

/-- The configurations two locking calls can be in: at most one thread holds
`latch_`, the field `latch_` names it, and no overlapping access has happened. -/
def exclusiveStates : List Threads :=
  lockedSuffixes.flatMap (fun l1 =>
    (lockedSuffixes.filter (fun l2 => !(holdsLatch l1 && holdsLatch l2))).map (fun l2 =>
      { latch_ := if holdsLatch l1 then some false else if holdsLatch l2 then some true else none
        first := l1
        second := l2
        overlap := false }))

/-- The member functions whose body opens with the guard on `latch_`. -/
def lockingMethods : List Method := [.Evict, .RecordAccess, .SetEvictable, .Remove]

/-! ## Basic lemmas -/

@[simp] theorem assign_same {V : Type} (m : frame_id_t → V) (k : frame_id_t) (v : V) :
    assign m k v k = v := by
  simp [assign]

@[simp] theorem assign_ne {V : Type} (m : frame_id_t → V) {k x : frame_id_t} (v : V)
    (h : x ≠ k) : assign m k v x = m x := by
  simp [assign, h]

theorem assign_apply {V : Type} (m : frame_id_t → V) (k x : frame_id_t) (v : V) :
    assign m k v x = if x = k then v else m x := rfl

theorem assign_eq_self {V : Type} (m : frame_id_t → V) (k : frame_id_t) (v : V)
    (h : m k = v) : assign m k v = m := by
  funext x
  by_cases hx : x = k
  · subst hx; simp [h]
  · simp [hx]

theorem assign_assign {V : Type} (m : frame_id_t → V) (k : frame_id_t) (v w : V) :
    assign (assign m k v) k w = assign m k w := by
  funext x
  by_cases hx : x = k
  · subst hx; simp
  · simp [hx]

theorem scan_eq_none {m : frame_id_t → Bool} {l : List frame_id_t} :
    scan m l = none ↔ ∀ x ∈ l, m x = false := by
  induction l with
  | nil => simp [scan]
  | cons a l ih =>
    by_cases ha : m a = true
    · simp [scan, ha]
    · simp [scan, ha, ih]

theorem scan_eq_some {m : frame_id_t → Bool} {l : List frame_id_t} {id : frame_id_t} :
    scan m l = some id ↔
      ∃ pre post, l = pre ++ id :: post ∧ m id = true ∧ ∀ x ∈ pre, m x = false := by
  induction l with
  | nil => simp [scan]
  | cons a l ih =>
    by_cases ha : m a = true
    · simp only [scan, ha, if_true, Option.some.injEq]
      constructor
      · rintro rfl
        exact ⟨[], l, rfl, ha, by simp⟩
      · rintro ⟨pre, post, hl, hid, hpre⟩
        cases pre with
        | nil => simp at hl; exact hl.1
        | cons b pre =>
          simp at hl
          have := hpre b (by simp)
          rw [← hl.1, ha] at this
          exact absurd this (by simp)
    · simp only [scan, ha, Bool.false_eq_true, if_false, ih]
      constructor
      · rintro ⟨pre, post, hl, hid, hpre⟩
        refine ⟨a :: pre, post, by simp [hl], hid, ?_⟩
        intro x hx
        rcases List.mem_cons.1 hx with rfl | hx
        · simpa using ha
        · exact hpre x hx
      · rintro ⟨pre, post, hl, hid, hpre⟩
        cases pre with
        | nil =>
          simp at hl
          rw [hl.1] at ha
          exact absurd hid ha
        | cons b pre =>
          simp at hl
          exact ⟨pre, post, hl.2, hid, fun x hx => hpre x (by simp [hx])⟩

theorem scan_mem {m : frame_id_t → Bool} {l : List frame_id_t} {id : frame_id_t}
    (h : scan m l = some id) : id ∈ l ∧ m id = true := by
  obtain ⟨pre, post, hl, hid, -⟩ := scan_eq_some.1 h
  exact ⟨by simp [hl], hid⟩

theorem frameIds_card : frameIds.card = 4294967296 := by
  simp [frameIds]

theorem mem_frameIds {f : frame_id_t} : f ∈ frameIds ↔ isFrameId f := by
  simp [frameIds, isFrameId]

theorem countTrue_le (m : frame_id_t → Bool) : countTrue m ≤ 4294967296 := by
  unfold countTrue
  calc (frameIds.filter (fun f => m f = true)).card ≤ frameIds.card := Finset.card_filter_le _ _
    _ = 4294967296 := frameIds_card

theorem countTrue_assign_true {m : frame_id_t → Bool} {f : frame_id_t}
    (hf : isFrameId f) (h : m f = false) : countTrue (assign m f true) = countTrue m + 1 := by
  unfold countTrue
  have hset : frameIds.filter (fun x => assign m f true x = true)
      = insert f (frameIds.filter (fun x => m x = true)) := by
    ext x
    by_cases hx : x = f
    · subst hx; simp [mem_frameIds, hf]
    · simp [hx]
  rw [hset, Finset.card_insert_of_not_mem]
  simp [h]

theorem countTrue_assign_false {m : frame_id_t → Bool} {f : frame_id_t}
    (hf : isFrameId f) (h : m f = true) : countTrue (assign m f false) + 1 = countTrue m := by
  unfold countTrue
  have hset : frameIds.filter (fun x => assign m f false x = true)
      = (frameIds.filter (fun x => m x = true)).erase f := by
    ext x
    by_cases hx : x = f
    · subst hx; simp
    · simp [hx]
  rw [hset]
  apply Finset.card_erase_add_one
  simp [mem_frameIds, hf, h]

theorem countTrue_pos {m : frame_id_t → Bool} {f : frame_id_t}
    (hf : isFrameId f) (h : m f = true) : 0 < countTrue m := by
  unfold countTrue
  apply Finset.card_pos.2
  exact ⟨f, by simp [mem_frameIds, hf, h]⟩

theorem inc64_of_lt {n : Nat} (h : n < 18446744073709551615) : inc64 n = n + 1 := by
  unfold inc64; omega

theorem dec64_of_pos {n : Nat} (h0 : 0 < n) (h : n < 18446744073709551616) :
    dec64 n = n - 1 := by
  unfold dec64; omega

/-! ## Shape of the results of the operations -/

theorem Evict_ok_some {s s' : LRUKReplacer} {f : frame_id_t}
    (h : Evict s = .ok s' (some f)) :
    s.curr_size_ ≠ 0 ∧
    ((scan s.evict_map_ s.node_list_.reverse = some f ∧ s.node_store_ f = true ∧
        s' = dropCold s f) ∨
     (scan s.evict_map_ s.node_list_.reverse = none ∧
        scan s.evict_map_ s.buffer_list_.reverse = some f ∧ s.buffer_store_ f = true ∧
        s' = dropWarm s f)) := by
  unfold Evict at h
  split_ifs at h with h0
  · simp at h
  · refine ⟨h0, ?_⟩
    split at h
    · rename_i id hc
      split_ifs at h with hs
      simp only [Result.ok.injEq, Option.some.injEq] at h
      obtain ⟨h1, h2⟩ := h
      subst h2
      exact Or.inl ⟨hc, hs, h1.symm⟩
    · rename_i hc
      split at h
      · rename_i id hw
        split_ifs at h with hs
        simp only [Result.ok.injEq, Option.some.injEq] at h
        obtain ⟨h1, h2⟩ := h
        subst h2
        exact Or.inr ⟨hc, hw, hs, h1.symm⟩
      · simp at h

theorem Evict_ok_none {s s' : LRUKReplacer} (h : Evict s = .ok s' none) :
    s' = s ∧ (s.curr_size_ = 0 ∨
      (scan s.evict_map_ s.node_list_.reverse = none ∧
       scan s.evict_map_ s.buffer_list_.reverse = none)) := by
  unfold Evict at h
  split_ifs at h with h0
  · simp only [Result.ok.injEq, and_true] at h
    exact ⟨h.symm, Or.inl h0⟩
  · split at h
    · split_ifs at h
      simp at h
    · rename_i hc
      split at h
      · split_ifs at h
        simp at h
      · rename_i hw
        simp only [Result.ok.injEq, and_true] at h
        exact ⟨h.symm, Or.inr ⟨hc, hw⟩⟩

theorem Evict_ne_exception (s s' : LRUKReplacer) : Evict s ≠ .exception s' := by
  unfold Evict
  split_ifs
  · simp
  · split
    · split_ifs
      · simp
      · simp
    · split
      · split_ifs
        · simp
        · simp
      · simp

theorem Remove_ok {s s' : LRUKReplacer} {f : frame_id_t} (h : Remove s f = .ok s' ()) :
    (s.access_count_ f = 0 ∧ s' = s) ∨
    (s.access_count_ f ≠ 0 ∧ s.evict_map_ f = true ∧
      ((s.access_count_ f < s.k_ ∧ s.node_store_ f = true ∧ s' = dropCold s f) ∨
       (¬ s.access_count_ f < s.k_ ∧ s.buffer_store_ f = true ∧ s' = dropWarm s f))) := by
  unfold Remove at h
  simp only at h
  split_ifs at h with h0 he hk hs hs
  · simp only [Result.ok.injEq, and_true] at h
    exact Or.inl ⟨h0, h.symm⟩
  · simp only [Result.ok.injEq, and_true] at h
    exact Or.inr ⟨h0, by simpa using he, Or.inl ⟨hk, hs, h.symm⟩⟩
  · simp only [Result.ok.injEq, and_true] at h
    exact Or.inr ⟨h0, by simpa using he, Or.inr ⟨hk, hs, h.symm⟩⟩

theorem Remove_exception {s s' : LRUKReplacer} {f : frame_id_t} :
    Remove s f = .exception s' ↔
      s' = s ∧ s.access_count_ f ≠ 0 ∧ s.evict_map_ f = false := by
  unfold Remove
  simp only
  split_ifs with h0 he hk hs hs
  · simp [h0]
  · simp only [Result.exception.injEq]
    constructor
    · intro h
      exact ⟨h.symm, h0, by simpa using he⟩
    · intro h
      exact h.1.symm
  all_goals
    have he' : s.evict_map_ f = true := by simpa using he
    simp [he']

theorem RecordAccess_exception {s s' : LRUKReplacer} {f : frame_id_t} :
    RecordAccess s f = .exception s' ↔ s' = s ∧ f > static_cast_int s.replacer_size_ := by
  unfold RecordAccess
  simp only
  split_ifs with h0
  · simp only [Result.exception.injEq]
    constructor
    · intro h; exact ⟨h.symm, h0⟩
    · intro h; exact h.1.symm
  all_goals simp [h0]

theorem RecordAccess_ok {s s' : LRUKReplacer} {f : frame_id_t}
    (h : RecordAccess s f = .ok s' ()) :
    ¬ f > static_cast_int s.replacer_size_ ∧
    ((s.access_count_ f + 1 = s.k_ ∧ s.node_store_ f = true ∧
        s' = { s with
               access_count_ := bump s f
               node_list_ := s.node_list_.erase f
               node_store_ := assign s.node_store_ f false
               buffer_list_ := f :: s.buffer_list_
               buffer_store_ := assign s.buffer_store_ f true }) ∨
     (s.access_count_ f + 1 < s.k_ ∧ s.node_store_ f = false ∧
        s' = { s with
               access_count_ := bump s f
               node_list_ := f :: s.node_list_
               node_store_ := assign s.node_store_ f true }) ∨
     (s.access_count_ f + 1 < s.k_ ∧ s.node_store_ f = true ∧
        s' = { s with access_count_ := bump s f }) ∨
     (s.k_ < s.access_count_ f + 1 ∧ s.buffer_store_ f = true ∧
        s' = { s with
               access_count_ := bump s f
               buffer_list_ := f :: s.buffer_list_.erase f
               buffer_store_ := assign s.buffer_store_ f true })) := by
  unfold RecordAccess at h
  simp only [assign_same] at h
  split_ifs at h with h0 hk hs hlt hs hs
  · simp only [Result.ok.injEq, and_true] at h
    exact ⟨h0, Or.inl ⟨hk, hs, h.symm⟩⟩
  · simp only [Result.ok.injEq, and_true] at h
    exact ⟨h0, Or.inr (Or.inl ⟨hlt, hs, h.symm⟩)⟩
  · simp only [Result.ok.injEq, and_true] at h
    exact ⟨h0, Or.inr (Or.inr (Or.inl ⟨hlt, by simpa using hs, h.symm⟩))⟩
  · simp only [Result.ok.injEq, and_true] at h
    exact ⟨h0, Or.inr (Or.inr (Or.inr ⟨by omega, hs, h.symm⟩))⟩

theorem SetEvictable_eq (s : LRUKReplacer) (f : frame_id_t) (b : Bool) :
    SetEvictable s f b =
      { s with
        evict_map_ := assign s.evict_map_ f b
        curr_size_ :=
          if s.evict_map_ f = b then s.curr_size_
          else if b then inc64 s.curr_size_ else dec64 s.curr_size_ } := by
  unfold SetEvictable
  cases hb : b <;> cases he : s.evict_map_ f <;> simp [he]

/-! ## The invariant holds in every reachable state -/

theorem countTrue_const_false : countTrue (fun _ => false) = 0 := by
  simp [countTrue]

theorem inv_new (n k : Nat) : Inv n k (LRUKReplacer.new n k) where
  k_eq := rfl
  size_eq := rfl
  cold := by intro f; simp [LRUKReplacer.new]
  warm := by intro f; simp [LRUKReplacer.new]
  node_keys := by intro f; simp [LRUKReplacer.new]
  buffer_keys := by intro f; simp [LRUKReplacer.new]
  node_nodup := by simp [LRUKReplacer.new]
  buffer_nodup := by simp [LRUKReplacer.new]
  flag_range := by intro f; simp [LRUKReplacer.new]
  accepted := by intro f; simp [LRUKReplacer.new]
  size := by simp [LRUKReplacer.new, evictableCount, countTrue_const_false, curr_size_init]

theorem Inv.size_le {n k : Nat} {s : LRUKReplacer} (h : Inv n k s) :
    s.curr_size_ ≤ 4294967296 := by
  rw [h.size]; exact countTrue_le _

theorem inv_drop_size {n k : Nat} {s : LRUKReplacer} {f : frame_id_t} (h : Inv n k s)
    (he : s.evict_map_ f = true) :
    dec64 s.curr_size_ = countTrue (assign s.evict_map_ f false) := by
  have hf := h.flag_range f he
  have h1 := countTrue_assign_false hf he
  have h2 := h.size
  have h3 := countTrue_le s.evict_map_
  unfold evictableCount at h2
  rw [dec64_of_pos (by omega) (by omega)]
  omega

theorem inv_dropCold {n k : Nat} {s : LRUKReplacer} {f : frame_id_t} (h : Inv n k s)
    (hm : f ∈ s.node_list_) (he : s.evict_map_ f = true) : Inv n k (dropCold s f) where
  k_eq := h.k_eq
  size_eq := h.size_eq
  cold := by
    intro g
    by_cases hg : g = f
    · subst hg
      simp [dropCold, h.node_nodup.mem_erase_iff]
    · simp [dropCold, hg, h.cold g]
  warm := by
    intro g
    by_cases hg : g = f
    · subst hg
      have h1 := (h.cold g).1 hm
      have h2 := h.warm g
      simp only [dropCold, assign_same, lt_self_iff_false, false_and, iff_false]
      intro h3
      have := h2.1 h3
      omega
    · simp [dropCold, hg, h.warm g]
  node_keys := by
    intro g
    by_cases hg : g = f
    · subst hg
      simp [dropCold, h.node_nodup.mem_erase_iff]
    · simp [dropCold, hg, h.node_keys g]
  buffer_keys := by intro g; simpa [dropCold] using h.buffer_keys g
  node_nodup := h.node_nodup.erase f
  buffer_nodup := h.buffer_nodup
  flag_range := by
    intro g
    by_cases hg : g = f
    · subst hg; simp [dropCold]
    · simpa [dropCold, hg] using h.flag_range g
  accepted := by
    intro g
    by_cases hg : g = f
    · subst hg; simp [dropCold]
    · simpa [dropCold, hg] using h.accepted g
  size := by simpa [dropCold, evictableCount] using inv_drop_size h he

theorem inv_dropWarm {n k : Nat} {s : LRUKReplacer} {f : frame_id_t} (h : Inv n k s)
    (hm : f ∈ s.buffer_list_) (he : s.evict_map_ f = true) : Inv n k (dropWarm s f) where
  k_eq := h.k_eq
  size_eq := h.size_eq
  cold := by
    intro g
    by_cases hg : g = f
    · subst hg
      have h1 := (h.warm g).1 hm
      have h2 := h.cold g
      simp only [dropWarm, assign_same, lt_self_iff_false, false_and, iff_false]
      intro h3
      have := h2.1 h3
      omega
    · simp [dropWarm, hg, h.cold g]
  warm := by
    intro g
    by_cases hg : g = f
    · subst hg
      simp [dropWarm, h.buffer_nodup.mem_erase_iff]
    · simp [dropWarm, hg, h.warm g]
  node_keys := by intro g; simpa [dropWarm] using h.node_keys g
  buffer_keys := by
    intro g
    by_cases hg : g = f
    · subst hg
      simp [dropWarm, h.buffer_nodup.mem_erase_iff]
    · simp [dropWarm, hg, h.buffer_keys g]
  node_nodup := h.node_nodup
  buffer_nodup := h.buffer_nodup.erase f
  flag_range := by
    intro g
    by_cases hg : g = f
    · subst hg; simp [dropWarm]
    · simpa [dropWarm, hg] using h.flag_range g
  accepted := by
    intro g
    by_cases hg : g = f
    · subst hg; simp [dropWarm]
    · simpa [dropWarm, hg] using h.accepted g
  size := by simpa [dropWarm, evictableCount] using inv_drop_size h he

theorem inv_recordAccess {n k : Nat} {s s' : LRUKReplacer} {f : frame_id_t} (h : Inv n k s)
    (hr : RecordAccess s f = .ok s' ()) : Inv n k s' := by
  obtain ⟨hv, hcase⟩ := RecordAccess_ok hr
  have hcold := h.cold
  have hwarm := h.warm
  rcases hcase with ⟨hk, hs, rfl⟩ | ⟨hk, hs, rfl⟩ | ⟨hk, hs, rfl⟩ | ⟨hk, hs, rfl⟩
  · -- the access that reaches `k_`: Cold to Warm
    have hm : f ∈ s.node_list_ := (h.node_keys f).1 hs
    have hnw : f ∉ s.buffer_list_ := fun hw => by have := (hwarm f).1 hw; omega
    refine ⟨h.k_eq, h.size_eq, ?_, ?_, ?_, ?_, h.node_nodup.erase f, ?_, h.flag_range, ?_, h.size⟩
    · intro g
      by_cases hg : g = f
      · subst hg
        simp only [h.node_nodup.mem_erase_iff, bump, assign_same]
        constructor
        · intro h1; exact absurd rfl h1.1
        · intro h1; omega
      · simp [bump, hg, hcold g]
    · intro g
      by_cases hg : g = f
      · subst hg
        simp only [List.mem_cons, true_or, bump, assign_same, true_iff]
        omega
      · simp [bump, hg, hwarm g]
    · intro g
      by_cases hg : g = f
      · subst hg
        simp [h.node_nodup.mem_erase_iff]
      · simp [hg, h.node_keys g]
    · intro g
      by_cases hg : g = f
      · subst hg; simp
      · simp [hg, h.buffer_keys g]
    · exact List.nodup_cons.2 ⟨hnw, h.buffer_nodup⟩
    · intro g
      by_cases hg : g = f
      · subst hg; intro _; exact hv
      · simpa [bump, hg] using h.accepted g
  · -- first access below `k_`: pushed on the Cold Queue
    have hnm : f ∉ s.node_list_ := fun hm => by
      have := (h.node_keys f).2 hm
      rw [hs] at this
      exact absurd this (by simp)
    refine ⟨h.k_eq, h.size_eq, ?_, ?_, ?_, h.buffer_keys, ?_, h.buffer_nodup,
      h.flag_range, ?_, h.size⟩
    · intro g
      by_cases hg : g = f
      · subst hg
        simp only [List.mem_cons, true_or, bump, assign_same, true_iff]
        omega
      · simp [bump, hg, hcold g]
    · intro g
      by_cases hg : g = f
      · subst hg
        simp only [bump, assign_same]
        constructor
        · intro h1
          have := (hwarm g).1 h1
          omega
        · intro h1; omega
      · simp [bump, hg, hwarm g]
    · intro g
      by_cases hg : g = f
      · subst hg; simp
      · simp [hg, h.node_keys g]
    · exact List.nodup_cons.2 ⟨hnm, h.node_nodup⟩
    · intro g
      by_cases hg : g = f
      · subst hg; intro _; exact hv
      · simpa [bump, hg] using h.accepted g
  · -- repeated access below `k_`: queues untouched
    have hm : f ∈ s.node_list_ := (h.node_keys f).1 hs
    have hc := (hcold f).1 hm
    refine ⟨h.k_eq, h.size_eq, ?_, ?_, h.node_keys, h.buffer_keys, h.node_nodup,
      h.buffer_nodup, h.flag_range, ?_, h.size⟩
    · intro g
      by_cases hg : g = f
      · subst hg
        simp only [bump, assign_same]
        constructor
        · intro _; omega
        · intro _; exact hm
      · simp [bump, hg, hcold g]
    · intro g
      by_cases hg : g = f
      · subst hg
        simp only [bump, assign_same]
        constructor
        · intro h1
          have := (hwarm g).1 h1
          omega
        · intro h1; omega
      · simp [bump, hg, hwarm g]
    · intro g
      by_cases hg : g = f
      · subst hg; intro _; exact hv
      · simpa [bump, hg] using h.accepted g
  · -- access at or above `k_`: moved to the front of the Warm Queue
    have hm : f ∈ s.buffer_list_ := (h.buffer_keys f).1 hs
    have hc := (hwarm f).1 hm
    refine ⟨h.k_eq, h.size_eq, ?_, ?_, h.node_keys, ?_, h.node_nodup, ?_,
      h.flag_range, ?_, h.size⟩
    · intro g
      by_cases hg : g = f
      · subst hg
        simp only [bump, assign_same]
        constructor
        · intro h1
          have := (hcold g).1 h1
          omega
        · intro h1; omega
      · simp [bump, hg, hcold g]
    · intro g
      by_cases hg : g = f
      · subst hg
        simp only [List.mem_cons, true_or, bump, assign_same, true_iff]
        omega
      · simp [bump, hg, hwarm g]
    · intro g
      by_cases hg : g = f
      · subst hg; simp
      · simp [hg, h.buffer_keys g]
    · exact List.nodup_cons.2 ⟨by simp [h.buffer_nodup.mem_erase_iff], h.buffer_nodup.erase f⟩
    · intro g
      by_cases hg : g = f
      · subst hg; intro _; exact hv
      · simpa [bump, hg] using h.accepted g

theorem inv_setEvictable {n k : Nat} {s : LRUKReplacer} (h : Inv n k s) {f : frame_id_t}
    (hf : isFrameId f) (b : Bool) : Inv n k (SetEvictable s f b) := by
  rw [SetEvictable_eq]
  refine ⟨h.k_eq, h.size_eq, h.cold, h.warm, h.node_keys, h.buffer_keys, h.node_nodup,
    h.buffer_nodup, ?_, h.accepted, ?_⟩
  · intro g
    by_cases hg : g = f
    · subst hg; intro _; exact hf
    · simpa [hg] using h.flag_range g
  · have hsz := h.size
    have hle := countTrue_le s.evict_map_
    unfold evictableCount at hsz ⊢
    simp only
    by_cases he : s.evict_map_ f = b
    · rw [if_pos he, assign_eq_self _ _ _ he]; exact hsz
    · rw [if_neg he]
      cases b with
      | true =>
        have he' : s.evict_map_ f = false := by simpa using he
        rw [if_pos rfl, countTrue_assign_true hf he', inc64_of_lt (by omega), hsz]
      | false =>
        have he' : s.evict_map_ f = true := by simpa using he
        have := countTrue_assign_false hf he'
        simp only [Bool.false_eq_true, if_false]
        rw [dec64_of_pos (by omega) (by omega)]
        omega

theorem inv_evict {n k : Nat} {s s' : LRUKReplacer} {r : Option frame_id_t} (h : Inv n k s)
    (he : Evict s = .ok s' r) : Inv n k s' := by
  cases r with
  | none => rw [(Evict_ok_none he).1]; exact h
  | some f =>
    obtain ⟨-, ⟨hc, -, rfl⟩ | ⟨-, hw, -, rfl⟩⟩ := Evict_ok_some he
    · have := scan_mem hc
      exact inv_dropCold h (by simpa using this.1) this.2
    · have := scan_mem hw
      exact inv_dropWarm h (by simpa using this.1) this.2

theorem inv_remove {n k : Nat} {s s' : LRUKReplacer} {f : frame_id_t} (h : Inv n k s)
    (hr : Remove s f = .ok s' ()) : Inv n k s' := by
  rcases Remove_ok hr with ⟨-, rfl⟩ | ⟨-, he, ⟨-, hs, rfl⟩ | ⟨-, hs, rfl⟩⟩
  · exact h
  · exact inv_dropCold h ((h.node_keys f).1 hs) he
  · exact inv_dropWarm h ((h.buffer_keys f).1 hs) he

theorem inv_step {n k : Nat} {s s' : LRUKReplacer} {op : Op} (h : Inv n k s)
    (hwf : op.wf) (hs : step s op = some s') : Inv n k s' := by
  cases op with
  | RecordAccess f =>
    simp only [step] at hs
    cases hr : RecordAccess s f with
    | ok s1 u =>
      rw [hr] at hs
      simp only [Result.after, Option.some.injEq] at hs
      subst hs
      exact inv_recordAccess h hr
    | exception s1 =>
      rw [hr] at hs
      simp only [Result.after, Option.some.injEq] at hs
      subst hs
      rw [(RecordAccess_exception.1 hr).1]; exact h
    | undefined => rw [hr] at hs; simp [Result.after] at hs
  | SetEvictable f b =>
    simp only [step, Option.some.injEq] at hs
    subst hs
    exact inv_setEvictable h hwf b
  | Evict =>
    simp only [step] at hs
    cases hr : Evict s with
    | ok s1 r =>
      rw [hr] at hs
      simp only [Result.after, Option.some.injEq] at hs
      subst hs
      exact inv_evict h hr
    | exception s1 => exact absurd hr (Evict_ne_exception s s1)
    | undefined => rw [hr] at hs; simp [Result.after] at hs
  | Remove f =>
    simp only [step] at hs
    cases hr : Remove s f with
    | ok s1 u =>
      rw [hr] at hs
      simp only [Result.after, Option.some.injEq] at hs
      subst hs
      exact inv_remove h hr
    | exception s1 =>
      rw [hr] at hs
      simp only [Result.after, Option.some.injEq] at hs
      subst hs
      rw [(Remove_exception.1 hr).1]; exact h
    | undefined => rw [hr] at hs; simp [Result.after] at hs

theorem inv_run {n k : Nat} {ops : List Op} : ∀ {s s' : LRUKReplacer}, Inv n k s →
    (∀ op ∈ ops, op.wf) → run s ops = some s' → Inv n k s' := by
  induction ops with
  | nil =>
    intro s s' h _ hr
    simp only [run, Option.some.injEq] at hr
    subst hr; exact h
  | cons op ops ih =>
    intro s s' h hwf hr
    simp only [run] at hr
    cases hs : step s op with
    | none => rw [hs] at hr; simp at hr
    | some s1 =>
      rw [hs] at hr
      simp only [Option.some_bind] at hr
      exact ih (inv_step h (hwf op (by simp)) hs) (fun o ho => hwf o (by simp [ho])) hr

theorem Reachable.inv {n k : Nat} {s : LRUKReplacer} (h : Reachable n k s) : Inv n k s := by
  obtain ⟨ops, hwf, hr⟩ := h
  exact inv_run (inv_new n k) hwf hr

theorem Evict_cold {s : LRUKReplacer} {f : frame_id_t} (h0 : s.curr_size_ ≠ 0)
    (hc : scan s.evict_map_ s.node_list_.reverse = some f) (hs : s.node_store_ f = true) :
    Evict s = .ok (dropCold s f) (some f) := by
  unfold Evict
  rw [if_neg h0, hc]
  simp only [hs, if_true]
  rfl

theorem Evict_warm {s : LRUKReplacer} {f : frame_id_t} (h0 : s.curr_size_ ≠ 0)
    (hc : scan s.evict_map_ s.node_list_.reverse = none)
    (hw : scan s.evict_map_ s.buffer_list_.reverse = some f) (hs : s.buffer_store_ f = true) :
    Evict s = .ok (dropWarm s f) (some f) := by
  unfold Evict
  rw [if_neg h0, hc]
  simp only [hw, hs, if_true]
  rfl

theorem Evict_nothing {s : LRUKReplacer}
    (hc : scan s.evict_map_ s.node_list_.reverse = none)
    (hw : scan s.evict_map_ s.buffer_list_.reverse = none) :
    Evict s = .ok s none := by
  unfold Evict
  split_ifs
  · rfl
  · simp only [hc, hw]

theorem Evict_zero {s : LRUKReplacer} (h0 : s.curr_size_ = 0) : Evict s = .ok s none := by
  unfold Evict
  rw [if_pos h0]

/-- Position of the scan result in the list itself: the entries behind it (older
ones) are all non-evictable. -/
theorem scan_reverse_eq_some {m : frame_id_t → Bool} {l : List frame_id_t} {f : frame_id_t} :
    scan m l.reverse = some f ↔
      ∃ newer older, l = newer ++ f :: older ∧ m f = true ∧ ∀ g ∈ older, m g = false := by
  rw [scan_eq_some]
  constructor
  · rintro ⟨pre, post, hl, hf, hpre⟩
    refine ⟨post.reverse, pre.reverse, ?_, hf, fun g hg => hpre g (List.mem_reverse.1 hg)⟩
    have := congrArg List.reverse hl
    simpa using this
  · rintro ⟨newer, older, hl, hf, hold⟩
    refine ⟨older.reverse, newer.reverse, ?_, hf, fun g hg => hold g (List.mem_reverse.1 hg)⟩
    simp [hl]

theorem Inv.size_pos {n k : Nat} {s : LRUKReplacer} (h : Inv n k s) {f : frame_id_t}
    (hf : s.evict_map_ f = true) : 0 < s.curr_size_ := by
  rw [h.size]
  exact countTrue_pos (h.flag_range f hf) hf

theorem scenarioState_reachable : Reachable 7 2 scenarioState :=
  ⟨scenarioOps, by decide, rfl⟩

/-! ## The ordering invariant -/

theorem traced_step_state {t t1 : Traced} {op : Op} (h : t.step op = some t1) :
    step t.state op = some t1.state := by
  cases op with
  | RecordAccess f =>
    simp only [Traced.step] at h
    simp only [step]
    cases hr : RecordAccess t.state f with
    | ok s1 u => rw [hr] at h; simp only [Option.some.injEq] at h; subst h; rfl
    | exception s1 => rw [hr] at h; simp only [Option.some.injEq] at h; subst h; rfl
    | undefined => rw [hr] at h; simp at h
  | SetEvictable f b =>
    simp only [Traced.step, Option.some.injEq] at h
    subst h; rfl
  | Evict =>
    simp only [Traced.step, Option.map_eq_some'] at h
    obtain ⟨s1, h1, rfl⟩ := h
    simpa [step] using h1
  | Remove f =>
    simp only [Traced.step, Option.map_eq_some'] at h
    obtain ⟨s1, h1, rfl⟩ := h
    simpa [step] using h1

theorem trace_state {ops : List Op} : ∀ {t t1 : Traced}, trace t ops = some t1 →
    run t.state ops = some t1.state := by
  induction ops with
  | nil =>
    intro t t1 h
    simp only [trace, Option.some.injEq] at h
    subst h; rfl
  | cons op ops ih =>
    intro t t1 h
    simp only [trace] at h
    cases hs : t.step op with
    | none => rw [hs] at h; simp at h
    | some t2 =>
      rw [hs] at h
      simp only [Option.some_bind] at h
      simp only [run, traced_step_state hs, Option.some_bind]
      exact ih h

theorem trace_reachable {n k : Nat} {ops : List Op} {t : Traced}
    (hwf : ∀ op ∈ ops, op.wf) (h : trace (Traced.new n k) ops = some t) :
    Reachable n k t.state :=
  ⟨ops, hwf, trace_state h⟩

theorem tinv_new (n k : Nat) : TInv (Traced.new n k) where
  cold_sorted := by simp [Traced.new, LRUKReplacer.new]
  warm_sorted := by simp [Traced.new, LRUKReplacer.new]
  cold_lt := by simp [Traced.new, LRUKReplacer.new]
  warm_lt := by simp [Traced.new, LRUKReplacer.new]

/-- Removing entries and letting time pass keeps the ordering invariant. -/
theorem tinv_sublist {t : Traced} (h : TInv t) {s1 : LRUKReplacer}
    (hc : s1.node_list_.Sublist t.state.node_list_)
    (hw : s1.buffer_list_.Sublist t.state.buffer_list_) :
    TInv { t with state := s1, clock := t.clock + 1 } where
  cold_sorted := h.cold_sorted.sublist hc
  warm_sorted := h.warm_sorted.sublist hw
  cold_lt := fun f hf => Nat.lt_succ_of_lt (h.cold_lt f (hc.subset hf))
  warm_lt := fun f hf => Nat.lt_succ_of_lt (h.warm_lt f (hw.subset hf))

theorem tinv_evict {t : Traced} (h : TInv t) {s1 : LRUKReplacer} {r : Option frame_id_t}
    (he : Evict t.state = .ok s1 r) : TInv { t with state := s1, clock := t.clock + 1 } := by
  apply tinv_sublist h
  · cases r with
    | none => rw [(Evict_ok_none he).1]
    | some f =>
      obtain ⟨-, ⟨-, -, rfl⟩ | ⟨-, -, -, rfl⟩⟩ := Evict_ok_some he
      · exact List.erase_sublist _ _
      · exact List.Sublist.refl _
  · cases r with
    | none => rw [(Evict_ok_none he).1]
    | some f =>
      obtain ⟨-, ⟨-, -, rfl⟩ | ⟨-, -, -, rfl⟩⟩ := Evict_ok_some he
      · exact List.Sublist.refl _
      · exact List.erase_sublist _ _

theorem tinv_remove {t : Traced} (h : TInv t) {s1 : LRUKReplacer} {f : frame_id_t}
    (hr : Remove t.state f = .ok s1 ()) :
    TInv { t with state := s1, clock := t.clock + 1 } := by
  apply tinv_sublist h
  · rcases Remove_ok hr with ⟨-, rfl⟩ | ⟨-, -, ⟨-, -, rfl⟩ | ⟨-, -, rfl⟩⟩
    · exact List.Sublist.refl _
    · exact List.erase_sublist _ _
    · exact List.Sublist.refl _
  · rcases Remove_ok hr with ⟨-, rfl⟩ | ⟨-, -, ⟨-, -, rfl⟩ | ⟨-, -, rfl⟩⟩
    · exact List.Sublist.refl _
    · exact List.Sublist.refl _
    · exact List.erase_sublist _ _

theorem tinv_recordAccess {n k : Nat} {t : Traced} (hi : Inv n k t.state) (h : TInv t)
    {s1 : LRUKReplacer} {f : frame_id_t} (hr : RecordAccess t.state f = .ok s1 ()) :
    TInv { state := s1
           clock := t.clock + 1
           first_access :=
             if t.state.access_count_ f = 0 then assign t.first_access f t.clock
             else t.first_access
           last_access := assign t.last_access f t.clock } := by
  obtain ⟨-, hcase⟩ := RecordAccess_ok hr
  have hcold := hi.cold
  have hwarm := hi.warm
  -- entries of the Cold Queue other than a frame introduced now keep their time
  have hfirst : ∀ g, g ∈ t.state.node_list_ →
      (if t.state.access_count_ f = 0 then assign t.first_access f t.clock
        else t.first_access) g = t.first_access g := by
    intro g hg
    split_ifs with h0
    · have : g ≠ f := by
        rintro rfl
        have := (hcold g).1 hg
        omega
      simp [this]
    · rfl
  have hlast : ∀ g, g ≠ f → assign t.last_access f t.clock g = t.last_access g := by
    intro g hg; simp [hg]
  rcases hcase with ⟨hk, hs, rfl⟩ | ⟨hk, hs, rfl⟩ | ⟨hk, hs, rfl⟩ | ⟨hk, hs, rfl⟩
  · have hnw : f ∉ t.state.buffer_list_ := fun hw => by have := (hwarm f).1 hw; omega
    refine ⟨?_, ?_, ?_, ?_⟩ <;> dsimp only
    · refine (h.cold_sorted.sublist (List.erase_sublist _ _)).imp_of_mem ?_
      intro a b ha hb hab
      rw [hfirst a (List.mem_of_mem_erase ha), hfirst b (List.mem_of_mem_erase hb)]
      exact hab
    · refine List.pairwise_cons.2 ⟨?_, ?_⟩
      · intro g hg
        have hgf : g ≠ f := fun e => hnw (e ▸ hg)
        simp only [assign_same, hlast g hgf]
        exact h.warm_lt g hg
      · refine h.warm_sorted.imp_of_mem ?_
        intro a b ha hb hab
        rw [hlast a (fun e => hnw (e ▸ ha)), hlast b (fun e => hnw (e ▸ hb))]
        exact hab
    · intro g hg
      rw [hfirst g (List.mem_of_mem_erase hg)]
      exact Nat.lt_succ_of_lt (h.cold_lt g (List.mem_of_mem_erase hg))
    · intro g hg
      rcases List.mem_cons.1 hg with rfl | hg
      · simp
      · rw [hlast g (fun e => hnw (e ▸ hg))]
        exact Nat.lt_succ_of_lt (h.warm_lt g hg)
  · have hnm : f ∉ t.state.node_list_ := fun hm => by
      have := (hi.node_keys f).2 hm
      rw [hs] at this
      exact absurd this (by simp)
    have h0 : t.state.access_count_ f = 0 := by
      by_contra hne
      exact hnm ((hcold f).2 ⟨Nat.pos_of_ne_zero hne, by omega⟩)
    have hnw : f ∉ t.state.buffer_list_ := fun hw => by have := (hwarm f).1 hw; omega
    refine ⟨?_, ?_, ?_, ?_⟩ <;> dsimp only
    · refine List.pairwise_cons.2 ⟨?_, ?_⟩
      · intro g hg
        rw [hfirst g hg]
        simp only [h0, if_true, assign_same]
        exact h.cold_lt g hg
      · refine h.cold_sorted.imp_of_mem ?_
        intro a b ha hb hab
        rw [hfirst a ha, hfirst b hb]
        exact hab
    · refine h.warm_sorted.imp_of_mem ?_
      intro a b ha hb hab
      rw [hlast a (fun e => hnw (e ▸ ha)), hlast b (fun e => hnw (e ▸ hb))]
      exact hab
    · intro g hg
      rcases List.mem_cons.1 hg with rfl | hg
      · simp [h0]
      · rw [hfirst g hg]
        exact Nat.lt_succ_of_lt (h.cold_lt g hg)
    · intro g hg
      rw [hlast g (fun e => hnw (e ▸ hg))]
      exact Nat.lt_succ_of_lt (h.warm_lt g hg)
  · have hm : f ∈ t.state.node_list_ := (hi.node_keys f).1 hs
    have hnw : f ∉ t.state.buffer_list_ := fun hw => by
      have := (hwarm f).1 hw
      have := (hcold f).1 hm
      omega
    refine ⟨?_, ?_, ?_, ?_⟩ <;> dsimp only
    · refine h.cold_sorted.imp_of_mem ?_
      intro a b ha hb hab
      rw [hfirst a ha, hfirst b hb]
      exact hab
    · refine h.warm_sorted.imp_of_mem ?_
      intro a b ha hb hab
      rw [hlast a (fun e => hnw (e ▸ ha)), hlast b (fun e => hnw (e ▸ hb))]
      exact hab
    · intro g hg
      rw [hfirst g hg]
      exact Nat.lt_succ_of_lt (h.cold_lt g hg)
    · intro g hg
      rw [hlast g (fun e => hnw (e ▸ hg))]
      exact Nat.lt_succ_of_lt (h.warm_lt g hg)
  · have hne : ∀ g, g ∈ t.state.buffer_list_.erase f → g ≠ f := by
      intro g hg
      exact ((hi.buffer_nodup.mem_erase_iff).1 hg).1
    refine ⟨?_, ?_, ?_, ?_⟩ <;> dsimp only
    · refine h.cold_sorted.imp_of_mem ?_
      intro a b ha hb hab
      rw [hfirst a ha, hfirst b hb]
      exact hab
    · refine List.pairwise_cons.2 ⟨?_, ?_⟩
      · intro g hg
        simp only [assign_same, hlast g (hne g hg)]
        exact h.warm_lt g (List.mem_of_mem_erase hg)
      · refine (h.warm_sorted.sublist (List.erase_sublist _ _)).imp_of_mem ?_
        intro a b ha hb hab
        rw [hlast a (hne a ha), hlast b (hne b hb)]
        exact hab
    · intro g hg
      rw [hfirst g hg]
      exact Nat.lt_succ_of_lt (h.cold_lt g hg)
    · intro g hg
      rcases List.mem_cons.1 hg with rfl | hg
      · simp
      · rw [hlast g (hne g hg)]
        exact Nat.lt_succ_of_lt (h.warm_lt g (List.mem_of_mem_erase hg))

theorem tinv_step {n k : Nat} {t t1 : Traced} {op : Op} (hi : Inv n k t.state) (h : TInv t)
    (hs : t.step op = some t1) : TInv t1 := by
  cases op with
  | RecordAccess f =>
    simp only [Traced.step] at hs
    cases hr : RecordAccess t.state f with
    | ok s1 u =>
      rw [hr] at hs
      simp only [Option.some.injEq] at hs
      subst hs
      exact tinv_recordAccess hi h hr
    | exception s1 =>
      rw [hr] at hs
      simp only [Option.some.injEq] at hs
      subst hs
      rw [(RecordAccess_exception.1 hr).1]
      exact tinv_sublist h (List.Sublist.refl _) (List.Sublist.refl _)
    | undefined => rw [hr] at hs; simp at hs
  | SetEvictable f b =>
    simp only [Traced.step, Option.some.injEq] at hs
    subst hs
    apply tinv_sublist h
    · rw [SetEvictable_eq]
    · rw [SetEvictable_eq]
  | Evict =>
    simp only [Traced.step, Option.map_eq_some'] at hs
    obtain ⟨s1, h1, rfl⟩ := hs
    cases hr : Evict t.state with
    | ok s2 r =>
      rw [hr] at h1
      simp only [Result.after, Option.some.injEq] at h1
      subst h1
      exact tinv_evict h hr
    | exception s2 => exact absurd hr (Evict_ne_exception _ _)
    | undefined => rw [hr] at h1; simp [Result.after] at h1
  | Remove f =>
    simp only [Traced.step, Option.map_eq_some'] at hs
    obtain ⟨s1, h1, rfl⟩ := hs
    cases hr : Remove t.state f with
    | ok s2 u =>
      rw [hr] at h1
      simp only [Result.after, Option.some.injEq] at h1
      subst h1
      exact tinv_remove h hr
    | exception s2 =>
      rw [hr] at h1
      simp only [Result.after, Option.some.injEq] at h1
      subst h1
      rw [(Remove_exception.1 hr).1]
      exact tinv_sublist h (List.Sublist.refl _) (List.Sublist.refl _)
    | undefined => rw [hr] at h1; simp [Result.after] at h1

theorem tinv_trace {n k : Nat} {ops : List Op} : ∀ {t t1 : Traced}, Inv n k t.state → TInv t →
    (∀ op ∈ ops, op.wf) → trace t ops = some t1 → TInv t1 := by
  induction ops with
  | nil =>
    intro t t1 _ h _ hr
    simp only [trace, Option.some.injEq] at hr
    subst hr; exact h
  | cons op ops ih =>
    intro t t1 hi h hwf hr
    simp only [trace] at hr
    cases hs : t.step op with
    | none => rw [hs] at hr; simp at hr
    | some t2 =>
      rw [hs] at hr
      simp only [Option.some_bind] at hr
      exact ih (inv_step hi (hwf op (by simp)) (traced_step_state hs)) (tinv_step hi h hs)
        (fun o ho => hwf o (by simp [ho])) hr

/-- The entry found by the backward scan is the oldest flagged entry of a queue
ordered by `time`. -/
theorem scan_reverse_oldest {m : frame_id_t → Bool} {l : List frame_id_t}
    {time : frame_id_t → Nat} {r : frame_id_t} (hs : scan m l.reverse = some r)
    (hp : l.Pairwise (fun x y => time y < time x)) :
    ∀ c ∈ l, m c = true → time r ≤ time c := by
  obtain ⟨newer, older, hl, -, hold⟩ := scan_reverse_eq_some.1 hs
  intro c hc hmc
  rw [hl] at hc hp
  rcases List.mem_append.1 hc with hc | hc
  · exact Nat.le_of_lt ((List.pairwise_append.1 hp).2.2 c hc r (by simp))
  · rcases List.mem_cons.1 hc with rfl | hc
    · exact Nat.le_refl _
    · rw [hold c hc] at hmc
      exact absurd hmc (by simp)

theorem RecordAccess_repeat_cold {s : LRUKReplacer} {f : frame_id_t}
    (hv : ¬ f > static_cast_int s.replacer_size_) (hk : s.access_count_ f + 1 < s.k_)
    (hs : s.node_store_ f = true) :
    RecordAccess s f = .ok { s with access_count_ := bump s f } () := by
  unfold RecordAccess
  simp only [assign_same]
  rw [if_neg hv, if_neg (by omega), if_pos hk, if_neg (by simp [hs])]
  rfl

theorem RecordAccess_warm {s : LRUKReplacer} {f : frame_id_t}
    (hv : ¬ f > static_cast_int s.replacer_size_) (hk : s.k_ < s.access_count_ f + 1)
    (hs : s.buffer_store_ f = true) :
    RecordAccess s f =
      .ok { s with
            access_count_ := bump s f
            buffer_list_ := f :: s.buffer_list_.erase f
            buffer_store_ := assign s.buffer_store_ f true } () := by
  unfold RecordAccess
  simp only [assign_same]
  rw [if_neg hv, if_neg (by omega), if_neg (by omega), if_pos hs]
  rfl

theorem filter_ne_cons_erase {l : List frame_id_t} (hl : l.Nodup) (f : frame_id_t) :
    (f :: l.erase f).filter (fun x => x != f) = l.filter (fun x => x != f) := by
  rw [hl.erase_eq_filter f]
  simp [List.filter_filter]

theorem untrackedFlagState_reachable : Reachable 7 2 untrackedFlagState :=
  ⟨[.SetEvictable 0 true], by decide, rfl⟩

theorem pinnedState_reachable : Reachable 7 2 pinnedState :=
  ⟨[.RecordAccess 1], by decide, rfl⟩

/-- Frames in a queue are exactly the tracked ones. -/
theorem Inv.mem_queues {n k : Nat} {s : LRUKReplacer} (h : Inv n k s) (f : frame_id_t) :
    f ∈ s.node_list_ ++ s.buffer_list_ ↔ 0 < s.access_count_ f := by
  rw [List.mem_append, h.cold f, h.warm f]
  constructor
  · rintro (h1 | h1) <;> exact h1.1
  · intro h1
    by_cases h2 : s.access_count_ f < s.k_
    · exact Or.inl ⟨h1, h2⟩
    · exact Or.inr ⟨h1, by omega⟩

theorem Inv.queues_nodup {n k : Nat} {s : LRUKReplacer} (h : Inv n k s) :
    (s.node_list_ ++ s.buffer_list_).Nodup := by
  refine List.Nodup.append h.node_nodup h.buffer_nodup ?_
  intro f hc hw
  have h1 := (h.cold f).1 hc
  have h2 := (h.warm f).1 hw
  omega

/-- The flagged frames that are tracked are the flagged queue entries. -/
theorem Inv.tracked_count {n k : Nat} {s : LRUKReplacer} (h : Inv n k s) :
    countTrue (fun f => s.evict_map_ f && decide (0 < s.access_count_ f))
      = queueEvictableCount s := by
  unfold countTrue queueEvictableCount
  have hset : frameIds.filter
        (fun f => (s.evict_map_ f && decide (0 < s.access_count_ f)) = true)
      = ((s.node_list_ ++ s.buffer_list_).filter (fun f => s.evict_map_ f)).toFinset := by
    ext x
    simp only [Finset.mem_filter, mem_frameIds, Bool.and_eq_true, decide_eq_true_eq,
      List.mem_toFinset, List.mem_filter, h.mem_queues x]
    constructor
    · rintro ⟨-, h1, h2⟩; exact ⟨h2, h1⟩
    · rintro ⟨h2, h1⟩; exact ⟨h.flag_range x h1, h1, h2⟩
  rw [hset, List.toFinset_card_of_nodup (h.queues_nodup.filter _), List.countP_eq_length_filter]

theorem countTrue_split (m p : frame_id_t → Bool) :
    countTrue m = countTrue (fun f => m f && p f) + countTrue (fun f => m f && !p f) := by
  unfold countTrue
  have h : ((frameIds.filter (fun f => m f = true)).filter (fun f => p f = true)).card
      + ((frameIds.filter (fun f => m f = true)).filter (fun f => ¬ p f = true)).card
      = (frameIds.filter (fun f => m f = true)).card :=
    Finset.filter_card_add_filter_neg_card_eq_card _
  have e1 : (frameIds.filter (fun f => m f = true)).filter (fun f => p f = true)
      = frameIds.filter (fun f => (m f && p f) = true) := by
    ext x
    simp only [Finset.mem_filter, Bool.and_eq_true, and_assoc]
  have e2 : (frameIds.filter (fun f => m f = true)).filter (fun f => ¬ p f = true)
      = frameIds.filter (fun f => (m f && !p f) = true) := by
    ext x
    simp only [Finset.mem_filter, Bool.and_eq_true, and_assoc, Bool.not_eq_true,
      Bool.not_eq_true']
  rw [e1, e2] at h
  exact h.symm

theorem Inv.size_split {n k : Nat} {s : LRUKReplacer} (h : Inv n k s) :
    s.curr_size_ = queueEvictableCount s + untrackedEvictableCount s := by
  rw [h.size, ← h.tracked_count]
  unfold evictableCount untrackedEvictableCount
  rw [countTrue_split s.evict_map_ (fun f => decide (0 < s.access_count_ f))]
  congr 2
  funext f
  congr 1
  by_cases h0 : s.access_count_ f = 0
  · simp [h0]
  · simp [h0, Nat.pos_of_ne_zero h0]

theorem Evict_defined {n k : Nat} {s : LRUKReplacer} (h : Inv n k s) :
    (Evict s = .ok s none ∧ ∀ f, 0 < s.access_count_ f → s.evict_map_ f = true →
        s.curr_size_ = 0) ∨
    (∃ f, Evict s = .ok (dropCold s f) (some f) ∧ f ∈ s.node_list_ ∧ s.evict_map_ f = true) ∨
    (∃ f, Evict s = .ok (dropWarm s f) (some f) ∧ f ∈ s.buffer_list_ ∧
        s.evict_map_ f = true) := by
  by_cases h0 : s.curr_size_ = 0
  · exact Or.inl ⟨Evict_zero h0, fun _ _ _ => h0⟩
  cases hc : scan s.evict_map_ s.node_list_.reverse with
  | some f =>
    have hf := scan_mem hc
    rw [List.mem_reverse] at hf
    exact Or.inr (Or.inl ⟨f, Evict_cold h0 hc ((h.node_keys f).2 hf.1), hf.1, hf.2⟩)
  | none =>
    cases hw : scan s.evict_map_ s.buffer_list_.reverse with
    | some f =>
      have hf := scan_mem hw
      rw [List.mem_reverse] at hf
      exact Or.inr (Or.inr ⟨f, Evict_warm h0 hc hw ((h.buffer_keys f).2 hf.1), hf.1, hf.2⟩)
    | none =>
      refine Or.inl ⟨Evict_nothing hc hw, ?_⟩
      intro f hf he
      exfalso
      rcases List.mem_append.1 ((h.mem_queues f).2 hf) with hm | hm
      · have := scan_eq_none.1 hc f (List.mem_reverse.2 hm)
        rw [he] at this; exact absurd this (by simp)
      · have := scan_eq_none.1 hw f (List.mem_reverse.2 hm)
        rw [he] at this; exact absurd this (by simp)

/-! ## Round trip for `K ≥ 2` -/

theorem run_append (s : LRUKReplacer) (xs ys : List Op) :
    run s (xs ++ ys) = (run s xs).bind (fun s1 => run s1 ys) := by
  induction xs generalizing s with
  | nil => simp [run]
  | cons x xs ih =>
    simp only [List.cons_append, run]
    cases step s x with
    | none => simp
    | some s1 => simp [ih]

theorem RecordAccess_first {s : LRUKReplacer} {f : frame_id_t}
    (hv : ¬ f > static_cast_int s.replacer_size_) (hk : 2 ≤ s.k_)
    (h0 : s.access_count_ f = 0) (hs : s.node_store_ f = false) :
    RecordAccess s f = .ok (afterAccesses s f 1) () := by
  unfold RecordAccess afterAccesses
  simp only [assign_same, h0]
  rw [if_neg hv, if_neg (by omega), if_pos (by omega), if_pos hs, if_pos (by omega)]

theorem RecordAccess_afterAccesses {s : LRUKReplacer} {f : frame_id_t} {c : Nat}
    (hv : ¬ f > static_cast_int s.replacer_size_) (hs : s.node_store_ f = false) :
    RecordAccess (afterAccesses s f c) f = .ok (afterAccesses s f (c + 1)) () := by
  have hns : assign s.node_store_ f false = s.node_store_ := assign_eq_self _ _ _ hs
  unfold afterAccesses
  by_cases h1 : c < s.k_
  · by_cases h2 : c + 1 < s.k_
    · rw [if_pos h1, if_pos h2]
      unfold RecordAccess
      simp only [assign_same, assign_assign]
      rw [if_neg hv, if_neg (by omega), if_pos h2, if_neg (by simp)]
    · rw [if_pos h1, if_neg h2]
      unfold RecordAccess
      simp only [assign_same, assign_assign, List.erase_cons_head, hns]
      rw [if_neg hv, if_pos (by omega), if_pos trivial]
  · rw [if_neg h1, if_neg (by omega)]
    unfold RecordAccess
    simp only [assign_same, assign_assign, List.erase_cons_head]
    rw [if_neg hv, if_neg (by omega), if_neg (by omega), if_pos trivial]

theorem run_accesses {s : LRUKReplacer} {f : frame_id_t}
    (hv : ¬ f > static_cast_int s.replacer_size_) (hs : s.node_store_ f = false)
    (m : Nat) : ∀ c,
      run (afterAccesses s f c) (List.replicate m (Op.RecordAccess f))
        = some (afterAccesses s f (c + m)) := by
  induction m with
  | zero => intro c; rfl
  | succ m ih =>
    intro c
    simp only [List.replicate_succ, run, step, RecordAccess_afterAccesses hv hs,
      Result.after, Option.some_bind]
    rw [ih (c + 1)]
    congr 2
    omega

theorem remove_afterAccesses {n k : Nat} {s : LRUKReplacer} {f : frame_id_t} {c : Nat}
    (h : Inv n k s) (hc : 1 ≤ c) (h0 : s.access_count_ f = 0)
    (he : s.evict_map_ f = false) :
    Remove (SetEvictable (afterAccesses s f c) f true) f = .ok s () := by
  have hm : f ∉ s.node_list_ := fun hm => by have := (h.cold f).1 hm; omega
  have hw : f ∉ s.buffer_list_ := fun hw => by have := (h.warm f).1 hw; omega
  have hns : s.node_store_ f = false := by
    cases hx : s.node_store_ f with
    | false => rfl
    | true => exact absurd ((h.node_keys f).1 hx) hm
  have hbs : s.buffer_store_ f = false := by
    cases hx : s.buffer_store_ f with
    | false => rfl
    | true => exact absurd ((h.buffer_keys f).1 hx) hw
  have hsz : dec64 (inc64 s.curr_size_) = s.curr_size_ := by
    have := h.size_le
    unfold dec64 inc64
    omega
  have e1 : assign s.node_store_ f false = s.node_store_ := assign_eq_self _ _ _ hns
  have e2 : assign s.buffer_store_ f false = s.buffer_store_ := assign_eq_self _ _ _ hbs
  have e3 : assign s.evict_map_ f false = s.evict_map_ := assign_eq_self _ _ _ he
  have e4 : assign s.access_count_ f 0 = s.access_count_ := assign_eq_self _ _ _ h0
  rw [SetEvictable_eq]
  unfold afterAccesses
  by_cases h1 : c < s.k_
  · rw [if_pos h1]
    unfold Remove
    simp only [assign_same, he, Bool.false_eq_true, if_false, if_true, Bool.not_true,
      assign_assign, List.erase_cons_head, e1, e3, e4, hsz]
    rw [if_neg (by omega), if_pos h1]
  · rw [if_neg h1]
    unfold Remove
    simp only [assign_same, he, Bool.false_eq_true, if_false, if_true, Bool.not_true,
      assign_assign, List.erase_cons_head, e2, e3, e4, hsz]
    rw [if_neg (by omega), if_neg h1]

/-- Round trip for `K ≥ 2`: in a reachable state, for a frame `f` accepted by
`RecordAccess`, untracked and not flagged, `m + 1` calls `RecordAccess(f)`, then
`SetEvictable(f, true)`, then `Remove(f)` lead back to the very same state. -/
theorem round_trip_of_two_le_k (n k : Nat) (s : LRUKReplacer) (f : frame_id_t) (m : Nat)
    (hk : 2 ≤ k) (hr : Reachable n k s)
    (hv : ¬ f > static_cast_int n) (h0 : s.access_count_ f = 0)
    (he : s.evict_map_ f = false) :
    run s (List.replicate (m + 1) (Op.RecordAccess f)
      ++ [Op.SetEvictable f true, Op.Remove f]) = some s := by
  have h := hr.inv
  have hm : f ∉ s.node_list_ := fun hm => by have := (h.cold f).1 hm; omega
  have hw : f ∉ s.buffer_list_ := fun hw => by have := (h.warm f).1 hw; omega
  have hns : s.node_store_ f = false := by
    cases hx : s.node_store_ f with
    | false => rfl
    | true => exact absurd ((h.node_keys f).1 hx) hm
  have hv' : ¬ f > static_cast_int s.replacer_size_ := by rw [h.size_eq]; exact hv
  have hk' : 2 ≤ s.k_ := by rw [h.k_eq]; exact hk
  rw [run_append, List.replicate_succ]
  simp only [run, step, RecordAccess_first hv' hk' h0 hns, Result.after, Option.some_bind]
  rw [run_accesses hv' hns m 1]
  simp only [Option.some_bind, remove_afterAccesses h (by omega : 1 ≤ 1 + m) h0 he]

/-! ## Effects of a removal -/

theorem filter_ne_of_not_mem {l : List frame_id_t} {f : frame_id_t} (h : f ∉ l) :
    l.filter (fun x => x != f) = l := by
  rw [List.filter_eq_self]
  intro a ha
  have : a ≠ f := fun e => h (e ▸ ha)
  simpa using this

/-- What the removal of a tracked, flagged frame `f` does, whichever queue held it. -/
theorem inv_drop_effects {n k : Nat} {s s' : LRUKReplacer} {f : frame_id_t} (h : Inv n k s)
    (he : s.evict_map_ f = true)
    (hs : (f ∈ s.node_list_ ∧ s' = dropCold s f) ∨ (f ∈ s.buffer_list_ ∧ s' = dropWarm s f)) :
    f ∉ s'.node_list_ ∧ f ∉ s'.buffer_list_ ∧
    s'.access_count_ f = 0 ∧ s'.evict_map_ f = false ∧
    Size s' + 1 = Size s ∧
    (∀ g, g ≠ f → s'.access_count_ g = s.access_count_ g ∧ s'.evict_map_ g = s.evict_map_ g) ∧
    s'.node_list_ = s.node_list_.filter (fun x => x != f) ∧
    s'.buffer_list_ = s.buffer_list_.filter (fun x => x != f) := by
  have hsz : dec64 s.curr_size_ + 1 = s.curr_size_ := by
    have h1 := h.size_pos he
    have h2 := h.size_le
    rw [dec64_of_pos h1 (by omega)]
    omega
  have hcs : s'.curr_size_ = dec64 s.curr_size_ := by
    rcases hs with ⟨-, e⟩ | ⟨-, e⟩
    · rw [e]; rfl
    · rw [e]; rfl
  have hsize : Size s' + 1 = Size s := by
    show s'.curr_size_ + 1 = s.curr_size_
    rw [hcs]; exact hsz
  rcases hs with ⟨hm, rfl⟩ | ⟨hm, rfl⟩
  · have hnw : f ∉ s.buffer_list_ := fun hw => by
      have := (h.cold f).1 hm
      have := (h.warm f).1 hw
      omega
    refine ⟨?_, hnw, ?_, ?_, ?_, ?_, ?_, ?_⟩
    · simp [dropCold, h.node_nodup.mem_erase_iff]
    · simp [dropCold]
    · simp [dropCold]
    · exact hsize
    · intro g hg; simp [dropCold, hg]
    · exact h.node_nodup.erase_eq_filter f
    · exact (filter_ne_of_not_mem hnw).symm
  · have hnc : f ∉ s.node_list_ := fun hc => by
      have := (h.cold f).1 hc
      have := (h.warm f).1 hm
      omega
    refine ⟨hnc, ?_, ?_, ?_, ?_, ?_, ?_, ?_⟩
    · simp [dropWarm, h.buffer_nodup.mem_erase_iff]
    · simp [dropWarm]
    · simp [dropWarm]
    · exact hsize
    · intro g hg; simp [dropWarm, hg]
    · exact (filter_ne_of_not_mem hnc).symm
    · exact h.buffer_nodup.erase_eq_filter f

/-- Induction over the reachable states. -/
theorem reachable_induction {n k : Nat} (P : LRUKReplacer → Prop)
    (h0 : P (LRUKReplacer.new n k))
    (hstep : ∀ s op s', Inv n k s → P s → op.wf → step s op = some s' → P s')
    {s : LRUKReplacer} (hr : Reachable n k s) : P s := by
  obtain ⟨ops, hwf, hrun⟩ := hr
  have key : ∀ (ops : List Op) (s0 s1 : LRUKReplacer), Inv n k s0 → P s0 →
      (∀ op ∈ ops, op.wf) → run s0 ops = some s1 → P s1 := by
    intro ops
    induction ops with
    | nil =>
      intro s0 s1 _ hp _ hrun
      simp only [run, Option.some.injEq] at hrun
      subst hrun; exact hp
    | cons op ops ih =>
      intro s0 s1 hi hp hwf hrun
      simp only [run] at hrun
      cases hs : step s0 op with
      | none => rw [hs] at hrun; simp at hrun
      | some s2 =>
        rw [hs] at hrun
        simp only [Option.some_bind] at hrun
        have hw := hwf op (by simp)
        exact ih s2 s1 (inv_step hi hw hs) (hstep s0 op s2 hi hp hw hs)
          (fun o ho => hwf o (by simp [ho])) hrun
  exact key ops _ s (inv_new n k) h0 hwf hrun

/-- With `K ≤ 1` no `RecordAccess` on an untracked frame returns, so no frame is
ever tracked. -/
theorem untracked_of_k_le_one {n k : Nat} {s : LRUKReplacer} (hr : Reachable n k s)
    (hk : k ≤ 1) : ∀ f, s.access_count_ f = 0 := by
  refine reachable_induction (fun s => ∀ f, s.access_count_ f = 0) ?_ ?_ hr
  · intro f; rfl
  · intro s op s' hi hp hwf hs
    cases op with
    | RecordAccess f =>
      simp only [step] at hs
      cases hra : RecordAccess s f with
      | ok s1 u =>
        rw [hra] at hs
        simp only [Result.after, Option.some.injEq] at hs
        subst hs
        exfalso
        have hk' := hi.k_eq
        have h0 := hp f
        obtain ⟨-, ⟨h1, h2, -⟩ | ⟨h1, -, -⟩ | ⟨h1, -, -⟩ | ⟨-, h2, -⟩⟩ := RecordAccess_ok hra
        · have := (hi.cold f).1 ((hi.node_keys f).1 h2); omega
        · omega
        · omega
        · have := (hi.warm f).1 ((hi.buffer_keys f).1 h2); omega
      | exception s1 =>
        rw [hra] at hs
        simp only [Result.after, Option.some.injEq] at hs
        subst hs
        rw [(RecordAccess_exception.1 hra).1]; exact hp
      | undefined => rw [hra] at hs; simp [Result.after] at hs
    | SetEvictable f b =>
      simp only [step, Option.some.injEq] at hs
      subst hs
      rw [SetEvictable_eq]; exact hp
    | Evict =>
      simp only [step] at hs
      cases hev : Evict s with
      | ok s1 r =>
        rw [hev] at hs
        simp only [Result.after, Option.some.injEq] at hs
        subst hs
        cases r with
        | none => rw [(Evict_ok_none hev).1]; exact hp
        | some f =>
          obtain ⟨-, ⟨-, -, rfl⟩ | ⟨-, -, -, rfl⟩⟩ := Evict_ok_some hev
          · intro g; by_cases hg : g = f
            · subst hg; simp [dropCold]
            · simpa [dropCold, hg] using hp g
          · intro g; by_cases hg : g = f
            · subst hg; simp [dropWarm]
            · simpa [dropWarm, hg] using hp g
      | exception s1 => exact absurd hev (Evict_ne_exception _ _)
      | undefined => rw [hev] at hs; simp [Result.after] at hs
    | Remove f =>
      simp only [step] at hs
      cases hrm : Remove s f with
      | ok s1 u =>
        rw [hrm] at hs
        simp only [Result.after, Option.some.injEq] at hs
        subst hs
        rcases Remove_ok hrm with ⟨-, rfl⟩ | ⟨h1, -, -⟩
        · exact hp
        · exact absurd (hp f) h1
      | exception s1 =>
        rw [hrm] at hs
        simp only [Result.after, Option.some.injEq] at hs
        subst hs
        rw [(Remove_exception.1 hrm).1]; exact hp
      | undefined => rw [hrm] at hs; simp [Result.after] at hs

theorem two_le_k_of_tracked {n k : Nat} {s : LRUKReplacer} (hr : Reachable n k s)
    {f : frame_id_t} (hf : 0 < s.access_count_ f) : 2 ≤ k := by
  by_contra hk
  have := untracked_of_k_le_one hr (by omega) f
  omega

/-! ## Effects of `SetEvictable` and `RecordAccess` -/

theorem Size_eq (s : LRUKReplacer) : Size s = s.curr_size_ := rfl

theorem inc64_dec64 {c : Nat} (h0 : 0 < c) (h : c < 18446744073709551616) :
    inc64 (dec64 c) = c := by
  unfold inc64 dec64; omega

theorem SetEvictable_curr_size (s : LRUKReplacer) (f : frame_id_t) (b : Bool) :
    (SetEvictable s f b).curr_size_ =
      if s.evict_map_ f = b then s.curr_size_
      else if b then inc64 s.curr_size_ else dec64 s.curr_size_ := by
  rw [SetEvictable_eq]

theorem SetEvictable_evict_map (s : LRUKReplacer) (f : frame_id_t) (b : Bool) :
    (SetEvictable s f b).evict_map_ = assign s.evict_map_ f b := by
  rw [SetEvictable_eq]

theorem SetEvictable_idem (s : LRUKReplacer) (f : frame_id_t) (b : Bool) :
    SetEvictable (SetEvictable s f b) f b = SetEvictable s f b := by
  rw [SetEvictable_eq (SetEvictable s f b) f b, SetEvictable_evict_map, assign_same,
    if_pos rfl, assign_assign]
  rw [SetEvictable_eq s f b]

theorem RecordAccess_promote {s : LRUKReplacer} {f : frame_id_t}
    (hv : ¬ f > static_cast_int s.replacer_size_) (hk : s.access_count_ f + 1 = s.k_)
    (hs : s.node_store_ f = true) :
    RecordAccess s f =
      .ok { s with
            access_count_ := bump s f
            node_list_ := s.node_list_.erase f
            node_store_ := assign s.node_store_ f false
            buffer_list_ := f :: s.buffer_list_
            buffer_store_ := assign s.buffer_store_ f true } () := by
  unfold RecordAccess
  simp only [assign_same]
  rw [if_neg hv, if_pos hk, if_pos hs]
  rfl

theorem Inv.node_store_false {n k : Nat} {s : LRUKReplacer} (h : Inv n k s) {f : frame_id_t}
    (h0 : s.access_count_ f = 0) : s.node_store_ f = false := by
  cases hx : s.node_store_ f with
  | false => rfl
  | true =>
    have := (h.cold f).1 ((h.node_keys f).1 hx)
    omega

/-- With `K ≥ 2` every accepted `RecordAccess` returns normally in a state
satisfying the invariant. -/
theorem RecordAccess_defined {n k : Nat} {s : LRUKReplacer} (h : Inv n k s) (hk : 2 ≤ k)
    {f : frame_id_t} (hv : ¬ f > static_cast_int n) :
    ∃ s', RecordAccess s f = .ok s' () := by
  have hke := h.k_eq
  have hv' : ¬ f > static_cast_int s.replacer_size_ := by rw [h.size_eq]; exact hv
  by_cases h0 : s.access_count_ f = 0
  · exact ⟨_, RecordAccess_first hv' (by omega) h0 (h.node_store_false h0)⟩
  · have hpos : 0 < s.access_count_ f := Nat.pos_of_ne_zero h0
    rcases Nat.lt_trichotomy (s.access_count_ f + 1) s.k_ with hlt | heq | hgt
    · exact ⟨_, RecordAccess_repeat_cold hv' hlt
        ((h.node_keys f).2 ((h.cold f).2 ⟨hpos, by omega⟩))⟩
    · exact ⟨_, RecordAccess_promote hv' heq
        ((h.node_keys f).2 ((h.cold f).2 ⟨hpos, by omega⟩))⟩
    · exact ⟨_, RecordAccess_warm hv' hgt
        ((h.buffer_keys f).2 ((h.warm f).2 ⟨hpos, by omega⟩))⟩

theorem Remove_defined {n k : Nat} {s : LRUKReplacer} (h : Inv n k s) (f : frame_id_t) :
    Remove s f ≠ .undefined := by
  unfold Remove
  simp only
  split_ifs with h0 he hk hs hs
  · simp
  · simp
  · simp
  · exact absurd ((h.node_keys f).2 ((h.cold f).2 ⟨Nat.pos_of_ne_zero h0, hk⟩)) hs
  · simp
  · exact absurd ((h.buffer_keys f).2
      ((h.warm f).2 ⟨Nat.pos_of_ne_zero h0, by omega⟩)) hs

/-- With `K ≥ 2` no call has undefined behaviour in a reachable state: every
erase through a position map finds its entry. -/
theorem step_defined_of_two_le_k {n k : Nat} {s : LRUKReplacer} (hr : Reachable n k s)
    (hk : 2 ≤ k) (op : Op) : ∃ s', step s op = some s' := by
  have h := hr.inv
  cases op with
  | RecordAccess f =>
    by_cases hv : f > static_cast_int n
    · refine ⟨s, ?_⟩
      have : RecordAccess s f = .exception s :=
        RecordAccess_exception.2 ⟨rfl, by rw [h.size_eq]; exact hv⟩
      simp only [step, this, Result.after]
    · obtain ⟨s', hs'⟩ := RecordAccess_defined h hk hv
      exact ⟨s', by simp only [step, hs', Result.after]⟩
  | SetEvictable f b => exact ⟨_, rfl⟩
  | Evict =>
    rcases Evict_defined h with ⟨h1, -⟩ | ⟨g, hg, -⟩ | ⟨g, hg, -⟩
    · exact ⟨s, by simp only [step, h1, Result.after]⟩
    · exact ⟨dropCold s g, by simp only [step, hg, Result.after]⟩
    · exact ⟨dropWarm s g, by simp only [step, hg, Result.after]⟩
  | Remove f =>
    cases hrm : Remove s f with
    | ok s1 u => exact ⟨s1, by simp only [step, hrm, Result.after]⟩
    | exception s1 => exact ⟨s1, by simp only [step, hrm, Result.after]⟩
    | undefined => exact absurd hrm (Remove_defined h f)

/-! ## Warm frames stay Warm -/

/-- A call that does not remove `F` does not lower the access count of `F`. -/
theorem step_count_mono {s s' : LRUKReplacer} {op : Op} {F : frame_id_t}
    (hs : step s op = some s') (hkeep : removesFrame s F op = false) :
    s.access_count_ F ≤ s'.access_count_ F := by
  cases op with
  | RecordAccess f =>
    simp only [step] at hs
    cases hra : RecordAccess s f with
    | ok s1 u =>
      rw [hra] at hs
      simp only [Result.after, Option.some.injEq] at hs
      subst hs
      have hb : s.access_count_ F ≤ bump s f F := by
        by_cases hF : F = f
        · subst hF; simp [bump]
        · simp [bump, hF]
      obtain ⟨-, ⟨-, -, rfl⟩ | ⟨-, -, rfl⟩ | ⟨-, -, rfl⟩ | ⟨-, -, rfl⟩⟩ := RecordAccess_ok hra
      all_goals exact hb
    | exception s1 =>
      rw [hra] at hs
      simp only [Result.after, Option.some.injEq] at hs
      subst hs
      rw [(RecordAccess_exception.1 hra).1]
    | undefined => rw [hra] at hs; simp [Result.after] at hs
  | SetEvictable f b =>
    simp only [step, Option.some.injEq] at hs
    subst hs
    rw [SetEvictable_eq]
  | Evict =>
    simp only [step] at hs
    cases hev : Evict s with
    | ok s1 r =>
      rw [hev] at hs
      simp only [Result.after, Option.some.injEq] at hs
      subst hs
      cases r with
      | none => rw [(Evict_ok_none hev).1]
      | some g =>
        have hne : F ≠ g := by
          rintro rfl
          simp [removesFrame, hev, Result.ret] at hkeep
        obtain ⟨-, ⟨-, -, rfl⟩ | ⟨-, -, -, rfl⟩⟩ := Evict_ok_some hev
        · simp [dropCold, hne]
        · simp [dropWarm, hne]
    | exception s1 => exact absurd hev (Evict_ne_exception _ _)
    | undefined => rw [hev] at hs; simp [Result.after] at hs
  | Remove f =>
    simp only [step] at hs
    cases hrm : Remove s f with
    | ok s1 u =>
      rw [hrm] at hs
      simp only [Result.after, Option.some.injEq] at hs
      subst hs
      have hne : F ≠ f := by
        rintro rfl
        simp [removesFrame, hrm, Result.ret] at hkeep
      rcases Remove_ok hrm with ⟨-, rfl⟩ | ⟨-, -, ⟨-, -, rfl⟩ | ⟨-, -, rfl⟩⟩
      · exact Nat.le_refl _
      · simp [dropCold, hne]
      · simp [dropWarm, hne]
    | exception s1 =>
      rw [hrm] at hs
      simp only [Result.after, Option.some.injEq] at hs
      subst hs
      rw [(Remove_exception.1 hrm).1]
    | undefined => rw [hrm] at hs; simp [Result.after] at hs

theorem run_count_mono {n k : Nat} {F : frame_id_t} (ops : List Op) :
    ∀ {s s' : LRUKReplacer}, Inv n k s → (∀ op ∈ ops, op.wf) → run s ops = some s' →
      keptAlong F s ops = true → Inv n k s' ∧ s.access_count_ F ≤ s'.access_count_ F := by
  induction ops with
  | nil =>
    intro s s' hi _ hrun _
    simp only [run, Option.some.injEq] at hrun
    subst hrun
    exact ⟨hi, Nat.le_refl _⟩
  | cons op ops ih =>
    intro s s' hi hwf hrun hkept
    simp only [run] at hrun
    cases hs : step s op with
    | none => rw [hs] at hrun; simp at hrun
    | some s1 =>
      rw [hs] at hrun
      simp only [Option.some_bind] at hrun
      simp only [keptAlong, hs, Bool.and_eq_true, Bool.not_eq_true'] at hkept
      have h1 := step_count_mono hs hkept.1
      obtain ⟨hi', h2⟩ := ih (inv_step hi (hwf op (by simp)) hs)
        (fun o ho => hwf o (by simp [ho])) hrun hkept.2
      exact ⟨hi', Nat.le_trans h1 h2⟩

/-! ## Mutual exclusion between the locking member functions -/

theorem exclusiveStates_start :
    ∀ m1 ∈ lockingMethods, ∀ m2 ∈ lockingMethods, Threads.start m1 m2 ∈ exclusiveStates := by
  decide

theorem exclusiveStates_step :
    ∀ c ∈ exclusiveStates, ∀ t : Bool, ∀ c1 ∈ c.step t, c1 ∈ exclusiveStates := by
  decide

theorem exclusiveStates_overlap : ∀ c ∈ exclusiveStates, c.overlap = false := by
  decide

theorem exclusiveStates_run (ts : List Bool) : ∀ c ∈ exclusiveStates, ∀ c1,
    c.run ts = some c1 → c1 ∈ exclusiveStates := by
  induction ts with
  | nil =>
    intro c hc c1 h
    simp only [Threads.run, Option.some.injEq] at h
    subst h; exact hc
  | cons t ts ih =>
    intro c hc c1 h
    simp only [Threads.run] at h
    cases hs : c.step t with
    | none => rw [hs] at h; simp at h
    | some c2 =>
      rw [hs] at h
      simp only [Option.some_bind] at h
      exact ih c2 (exclusiveStates_step c hc t c2 (by simp [hs])) c1 h

/-- With `K = 1` every accepted `RecordAccess` in a reachable state runs into
the erase through the missing `node_store_` entry. -/
theorem RecordAccess_undefined_of_k_one {n : Nat} {s : LRUKReplacer} (hr : Reachable n 1 s)
    {f : frame_id_t} (hv : ¬ f > static_cast_int n) : RecordAccess s f = .undefined := by
  have h := hr.inv
  have h0 := untracked_of_k_le_one hr (Nat.le_refl 1) f
  have hns := h.node_store_false h0
  have hv' : ¬ f > static_cast_int s.replacer_size_ := by rw [h.size_eq]; exact hv
  have hk : s.access_count_ f + 1 = s.k_ := by rw [h.k_eq, h0]
  have hns' : ¬ s.node_store_ f = true := by simp [hns]
  unfold RecordAccess
  simp only [assign_same]
  rw [if_neg hv', if_pos hk, if_neg hns']

/-! ## Properties of the specification -/

/-- C1: whenever `Evict` returns a frame, that frame is the first entry flagged
evictable met when scanning the Cold Queue from its oldest end (every entry
behind it in `node_list_` is not evictable), or, when the Cold Queue holds no
evictable entry, the first such entry of the Warm Queue scanned from its
least-recently-used end.  This holds in every state, hence for every `K ≥ 1` and
every reachable state. -/
theorem C1_evict_returns_first_evictable (s s' : LRUKReplacer) (f : frame_id_t)
    (he : Evict s = .ok s' (some f)) :
    (∃ newer older, s.node_list_ = newer ++ f :: older ∧ s.evict_map_ f = true ∧
        ∀ g ∈ older, s.evict_map_ g = false) ∨
    ((∀ g ∈ s.node_list_, s.evict_map_ g = false) ∧
      ∃ newer older, s.buffer_list_ = newer ++ f :: older ∧ s.evict_map_ f = true ∧
        ∀ g ∈ older, s.evict_map_ g = false) := by
  obtain ⟨-, ⟨hc, -, -⟩ | ⟨hc, hw, -, -⟩⟩ := Evict_ok_some he
  · exact Or.inl (scan_reverse_eq_some.1 hc)
  · refine Or.inr ⟨?_, scan_reverse_eq_some.1 hw⟩
    intro g hg
    exact scan_eq_none.1 hc g (List.mem_reverse.2 hg)

/-- Witness of C1 on the scenario state (`node_list_ = [2]`, `buffer_list_ = [1]`,
both evictable): `Evict` returns 2, the oldest evictable Cold entry. -/
theorem C1_witness :
    Evict scenarioState = .ok (dropCold scenarioState 2) (some 2) ∧
    ((∃ newer older, scenarioState.node_list_ = newer ++ 2 :: older ∧
        scenarioState.evict_map_ 2 = true ∧ ∀ g ∈ older, scenarioState.evict_map_ g = false) ∨
     ((∀ g ∈ scenarioState.node_list_, scenarioState.evict_map_ g = false) ∧
      ∃ newer older, scenarioState.buffer_list_ = newer ++ 2 :: older ∧
        scenarioState.evict_map_ 2 = true ∧ ∀ g ∈ older, scenarioState.evict_map_ g = false)) :=
  ⟨rfl, C1_evict_returns_first_evictable scenarioState (dropCold scenarioState 2) 2 rfl⟩

/-- C2: tier priority.  In every reachable state, if some frame flagged evictable
has an access count `c` with `0 < c < K`, then `Evict` returns a frame whose
access count just before the call is below `K` (and positive): no frame with `K`
or more accesses is evicted while an evictable frame with fewer than `K`
accesses is tracked. -/
theorem C2_tier_priority (n k : Nat) (s : LRUKReplacer) (g : frame_id_t)
    (hr : Reachable n k s) (hg : s.evict_map_ g = true)
    (hc : 0 < s.access_count_ g ∧ s.access_count_ g < k) :
    ∃ s' f, Evict s = .ok s' (some f) ∧ 0 < s.access_count_ f ∧ s.access_count_ f < k := by
  have h := hr.inv
  have hk := h.k_eq
  have hm : g ∈ s.node_list_ := (h.cold g).2 (by rw [hk]; exact hc)
  have h0 : s.curr_size_ ≠ 0 := (h.size_pos hg).ne'
  cases hs : scan s.evict_map_ s.node_list_.reverse with
  | none =>
    have := scan_eq_none.1 hs g (List.mem_reverse.2 hm)
    rw [hg] at this
    exact absurd this (by simp)
  | some f =>
    have hf := (scan_mem hs).1
    rw [List.mem_reverse] at hf
    have hcnt := (h.cold f).1 hf
    rw [hk] at hcnt
    exact ⟨dropCold s f, f, Evict_cold h0 hs ((h.node_keys f).2 hf), hcnt⟩

/-- Witness of C2, the scenario of the specification: with `K = 2`, after the
accesses 1, 2, 1 and both frames marked evictable, `Evict` returns 2 (one
access) and the next `Evict` returns 1 (two accesses). -/
theorem C2_witness :
    (Evict scenarioState).ret = some (some 2) ∧
    ((Evict scenarioState).after.bind (fun s => (Evict s).ret)) = some (some 1) ∧
    ∃ s' f, Evict scenarioState = .ok s' (some f) ∧
      0 < scenarioState.access_count_ f ∧ scenarioState.access_count_ f < 2 :=
  ⟨by decide, by decide,
    C2_tier_priority 7 2 scenarioState 2 scenarioState_reachable (by decide) (by decide)⟩

/-- C3: Cold-tier order is first-access order.  After any sequence of calls, if
frames `a` and `b` are both tracked with fewer than `K` accesses and both
evictable, and `a` was introduced (its first `RecordAccess` since its count was
last 0) before `b`, then `Evict` returns a frame other than `b`: it returns the
evictable Cold frame introduced earliest, so `b` is never returned while `a` is
still there.  Moreover a `RecordAccess` on a tracked frame that stays below `K`
leaves the Cold Queue as it is.  (`0 < count < K` forces `K ≥ 2`.) -/
theorem C3_cold_order_is_first_access_order (n k : Nat) (ops : List Op) (t : Traced)
    (a b : frame_id_t) (hwf : ∀ op ∈ ops, op.wf)
    (ht : trace (Traced.new n k) ops = some t)
    (ha : 0 < t.state.access_count_ a ∧ t.state.access_count_ a < k)
    (hb : 0 < t.state.access_count_ b ∧ t.state.access_count_ b < k)
    (hea : t.state.evict_map_ a = true) (heb : t.state.evict_map_ b = true)
    (hab : t.first_access a < t.first_access b) :
    (∃ s' r, Evict t.state = .ok s' (some r) ∧ r ≠ b ∧
        (0 < t.state.access_count_ r ∧ t.state.access_count_ r < k) ∧
        t.state.evict_map_ r = true ∧
        ∀ c, 0 < t.state.access_count_ c → t.state.access_count_ c < k →
          t.state.evict_map_ c = true → t.first_access r ≤ t.first_access c) ∧
    (∀ f, 0 < t.state.access_count_ f → t.state.access_count_ f + 1 < k →
        ∃ s', RecordAccess t.state f = .ok s' () ∧ s'.node_list_ = t.state.node_list_) := by
  have hi : Inv n k t.state := (trace_reachable hwf ht).inv
  have hti : TInv t := tinv_trace (inv_new n k) (tinv_new n k) hwf ht
  have hk := hi.k_eq
  constructor
  · have hma : a ∈ t.state.node_list_ := (hi.cold a).2 (by rw [hk]; exact ha)
    have h0 : t.state.curr_size_ ≠ 0 := (hi.size_pos hea).ne'
    cases hs : scan t.state.evict_map_ t.state.node_list_.reverse with
    | none =>
      have := scan_eq_none.1 hs a (List.mem_reverse.2 hma)
      rw [hea] at this
      exact absurd this (by simp)
    | some r =>
      have hr := scan_mem hs
      rw [List.mem_reverse] at hr
      have hmin := scan_reverse_oldest hs hti.cold_sorted
      have hcnt := (hi.cold r).1 hr.1
      rw [hk] at hcnt
      refine ⟨dropCold t.state r, r, Evict_cold h0 hs ((hi.node_keys r).2 hr.1), ?_, hcnt,
        hr.2, ?_⟩
      · rintro rfl
        have := hmin a hma hea
        omega
      · intro c hc1 hc2 hec
        exact hmin c ((hi.cold c).2 ⟨hc1, by rw [hk]; exact hc2⟩) hec
  · intro f hf1 hf2
    have hm : f ∈ t.state.node_list_ := (hi.cold f).2 ⟨hf1, by rw [hk]; omega⟩
    exact ⟨_, RecordAccess_repeat_cold (hi.accepted f hf1) (by rw [hk]; exact hf2)
      ((hi.node_keys f).2 hm), rfl⟩

/-- Witness of C3 with `K = 3`: frame 1 is introduced at time 0, frame 2 at time 1,
frame 1 is accessed again at time 2; `Evict` returns 1. -/
theorem C3_witness :
    (Evict coldTrace.state).ret = some (some 1) ∧
    ((∃ s' r, Evict coldTrace.state = .ok s' (some r) ∧ r ≠ 2 ∧
        (0 < coldTrace.state.access_count_ r ∧ coldTrace.state.access_count_ r < 3) ∧
        coldTrace.state.evict_map_ r = true ∧
        ∀ c, 0 < coldTrace.state.access_count_ c → coldTrace.state.access_count_ c < 3 →
          coldTrace.state.evict_map_ c = true →
          coldTrace.first_access r ≤ coldTrace.first_access c) ∧
     (∀ f, 0 < coldTrace.state.access_count_ f → coldTrace.state.access_count_ f + 1 < 3 →
        ∃ s', RecordAccess coldTrace.state f = .ok s' () ∧
          s'.node_list_ = coldTrace.state.node_list_)) :=
  ⟨by decide,
    C3_cold_order_is_first_access_order 7 3 coldOps coldTrace 1 2 (by decide) rfl
      (by decide) (by decide) (by decide) (by decide) (by decide)⟩

/-- C4: Warm-tier order is recency order.  For `K ≥ 1`, after any sequence of
calls, if frames `a` and `b` both have at least `K` accesses and are both
evictable, the Cold Queue holds no evictable entry, and the most recent
`RecordAccess` of `a` came before that of `b`, then `Evict` returns a frame
other than `b`: it returns the evictable Warm frame accessed least recently
(which is `a` unless some other evictable Warm frame is older still).  Moreover
a `RecordAccess` on a Warm frame puts it at the most-recently-used end of the
Warm Queue and leaves the other Warm frames in their order and the Cold Queue
untouched. -/
theorem C4_warm_order_is_recency_order (n k : Nat) (ops : List Op) (t : Traced)
    (a b : frame_id_t) (hk1 : 1 ≤ k) (hwf : ∀ op ∈ ops, op.wf)
    (ht : trace (Traced.new n k) ops = some t)
    (ha : k ≤ t.state.access_count_ a) (hb : k ≤ t.state.access_count_ b)
    (hea : t.state.evict_map_ a = true) (heb : t.state.evict_map_ b = true)
    (hcold : ∀ c ∈ t.state.node_list_, t.state.evict_map_ c = false)
    (hab : t.last_access a < t.last_access b) :
    (∃ s' r, Evict t.state = .ok s' (some r) ∧ r ≠ b ∧
        k ≤ t.state.access_count_ r ∧ t.state.evict_map_ r = true ∧
        ∀ c, k ≤ t.state.access_count_ c → t.state.evict_map_ c = true →
          t.last_access r ≤ t.last_access c) ∧
    (∀ f, k ≤ t.state.access_count_ f →
        ∃ s', RecordAccess t.state f = .ok s' () ∧
          s'.buffer_list_.head? = some f ∧
          s'.buffer_list_.filter (fun x => x != f)
            = t.state.buffer_list_.filter (fun x => x != f) ∧
          s'.node_list_ = t.state.node_list_) := by
  have hi : Inv n k t.state := (trace_reachable hwf ht).inv
  have hti : TInv t := tinv_trace (inv_new n k) (tinv_new n k) hwf ht
  have hk := hi.k_eq
  have hmem : ∀ c, k ≤ t.state.access_count_ c → c ∈ t.state.buffer_list_ := by
    intro c hc
    exact (hi.warm c).2 ⟨by omega, by rw [hk]; exact hc⟩
  constructor
  · have hma := hmem a ha
    have h0 : t.state.curr_size_ ≠ 0 := (hi.size_pos hea).ne'
    have hnone : scan t.state.evict_map_ t.state.node_list_.reverse = none :=
      scan_eq_none.2 (fun x hx => hcold x (List.mem_reverse.1 hx))
    cases hs : scan t.state.evict_map_ t.state.buffer_list_.reverse with
    | none =>
      have := scan_eq_none.1 hs a (List.mem_reverse.2 hma)
      rw [hea] at this
      exact absurd this (by simp)
    | some r =>
      have hr := scan_mem hs
      rw [List.mem_reverse] at hr
      have hmin := scan_reverse_oldest hs hti.warm_sorted
      have hcnt := ((hi.warm r).1 hr.1).2
      rw [hk] at hcnt
      refine ⟨dropWarm t.state r, r, Evict_warm h0 hnone hs ((hi.buffer_keys r).2 hr.1), ?_,
        hcnt, hr.2, ?_⟩
      · rintro rfl
        have := hmin a hma hea
        omega
      · intro c hc hec
        exact hmin c (hmem c hc) hec
  · intro f hf
    have hm := hmem f hf
    refine ⟨_, RecordAccess_warm (hi.accepted f (by omega)) (by rw [hk]; omega)
      ((hi.buffer_keys f).2 hm), rfl, ?_, rfl⟩
    exact filter_ne_cons_erase hi.buffer_nodup f

/-- Witness of C4 with `K = 2`: frames 1 and 2 are both Warm, the last access of
frame 2 (time 3) precedes the last access of frame 1 (time 4); `Evict` returns 2. -/
theorem C4_witness :
    (Evict warmTrace.state).ret = some (some 2) ∧
    ((∃ s' r, Evict warmTrace.state = .ok s' (some r) ∧ r ≠ 1 ∧
        2 ≤ warmTrace.state.access_count_ r ∧ warmTrace.state.evict_map_ r = true ∧
        ∀ c, 2 ≤ warmTrace.state.access_count_ c → warmTrace.state.evict_map_ c = true →
          warmTrace.last_access r ≤ warmTrace.last_access c) ∧
     (∀ f, 2 ≤ warmTrace.state.access_count_ f →
        ∃ s', RecordAccess warmTrace.state f = .ok s' () ∧
          s'.buffer_list_.head? = some f ∧
          s'.buffer_list_.filter (fun x => x != f)
            = warmTrace.state.buffer_list_.filter (fun x => x != f) ∧
          s'.node_list_ = warmTrace.state.node_list_)) :=
  ⟨by decide,
    C4_warm_order_is_recency_order 7 2 warmOps warmTrace 2 1 (by decide) (by decide) rfl
      (by decide) (by decide) (by decide) (by decide) (by decide) (by decide)⟩

/-- C5: in every state reachable from a fresh replacer by `RecordAccess`,
`SetEvictable`, `Evict` and `Remove` calls (failing ones included), `Size()`
equals the number of frames whose `EvictableFlag` is `true`.  In particular
`curr_size_` is positive whenever some flag is set, so it is never decremented
from 0: each of the three decrements (`SetEvictable` from `true` to `false`, a
successful `Evict`, a successful `Remove` of a tracked frame) lowers it by
exactly one. -/
theorem C5_size_counts_evictable_flags (n k : Nat) (s : LRUKReplacer)
    (hr : Reachable n k s) :
    Size s = evictableCount s ∧
    (∀ f, s.evict_map_ f = true → 0 < s.curr_size_) ∧
    (∀ f, s.evict_map_ f = true → (SetEvictable s f false).curr_size_ + 1 = s.curr_size_) ∧
    (∀ s' f, Evict s = .ok s' (some f) → s'.curr_size_ + 1 = s.curr_size_) ∧
    (∀ s' f, Remove s f = .ok s' () → s.access_count_ f ≠ 0 →
      s'.curr_size_ + 1 = s.curr_size_) := by
  have h := hr.inv
  have hle := h.size_le
  have hdec : ∀ f, s.evict_map_ f = true → dec64 s.curr_size_ + 1 = s.curr_size_ := by
    intro f hf
    have := h.size_pos hf
    rw [dec64_of_pos this (by omega)]
    omega
  refine ⟨h.size, fun f hf => h.size_pos hf, ?_, ?_, ?_⟩
  · intro f hf
    rw [SetEvictable_eq]
    simp only [hf, Bool.true_eq_false, if_false, Bool.false_eq_true]
    exact hdec f hf
  · intro s' f he
    obtain ⟨-, ⟨hc, -, rfl⟩ | ⟨-, hw, -, rfl⟩⟩ := Evict_ok_some he
    · exact hdec f (scan_mem hc).2
    · exact hdec f (scan_mem hw).2
  · intro s' f hrm h0
    rcases Remove_ok hrm with ⟨h1, -⟩ | ⟨-, he, ⟨-, -, rfl⟩ | ⟨-, -, rfl⟩⟩
    · exact absurd h1 h0
    · exact hdec f he
    · exact hdec f he

/-- Witness of C5 on the scenario state (frames 1 and 2 flagged, `Size() = 2`). -/
theorem C5_witness :
    Size scenarioState = 2 ∧
    (Size scenarioState = evictableCount scenarioState ∧
     (∀ f, scenarioState.evict_map_ f = true → 0 < scenarioState.curr_size_) ∧
     (∀ f, scenarioState.evict_map_ f = true →
        (SetEvictable scenarioState f false).curr_size_ + 1 = scenarioState.curr_size_) ∧
     (∀ s' f, Evict scenarioState = .ok s' (some f) →
        s'.curr_size_ + 1 = scenarioState.curr_size_) ∧
     (∀ s' f, Remove scenarioState f = .ok s' () → scenarioState.access_count_ f ≠ 0 →
        s'.curr_size_ + 1 = scenarioState.curr_size_)) :=
  ⟨by decide, C5_size_counts_evictable_flags 7 2 scenarioState scenarioState_reachable⟩

/-- C6, counterexample: after `SetEvictable(0, true)` on a fresh replacer (frame 0
never accessed) the state is reachable and `Size()` is 1, yet `Evict` returns no
frame. -/
theorem C6_counterexample :
    Reachable 7 2 untrackedFlagState ∧ 0 < Size untrackedFlagState ∧
    (Evict untrackedFlagState).ret = some none ∧
    ¬ ∃ s' f, Evict untrackedFlagState = .ok s' (some f) := by
  refine ⟨untrackedFlagState_reachable, by decide, by decide, ?_⟩
  rintro ⟨s', f, h⟩
  have : (Evict untrackedFlagState).ret = some (some f) := by rw [h]; rfl
  rw [show (Evict untrackedFlagState).ret = some none by decide] at this
  exact absurd this (by simp)

/-- C6, amended: in every reachable state `Evict` returns normally; it returns no
frame, leaving the state as it is, when `Size()` is 0, and it returns a frame
exactly when some tracked frame (access count above 0) is flagged evictable.
`Size() > 0` is necessary for a frame to be returned, not sufficient. -/
theorem C6_evict_returns_iff_tracked_evictable (n k : Nat) (s : LRUKReplacer)
    (hr : Reachable n k s) :
    (Size s = 0 → Evict s = .ok s none) ∧
    ((∃ s' f, Evict s = .ok s' (some f)) ↔
      ∃ f, 0 < s.access_count_ f ∧ s.evict_map_ f = true) ∧
    ((¬ ∃ f, 0 < s.access_count_ f ∧ s.evict_map_ f = true) → Evict s = .ok s none) ∧
    ((∃ s' f, Evict s = .ok s' (some f)) → 0 < Size s) := by
  have h := hr.inv
  have hsome : (∃ s' f, Evict s = .ok s' (some f)) ↔
      ∃ f, 0 < s.access_count_ f ∧ s.evict_map_ f = true := by
    constructor
    · rintro ⟨s', f, he⟩
      obtain ⟨-, ⟨hc, -, -⟩ | ⟨-, hw, -, -⟩⟩ := Evict_ok_some he
      · have hf := scan_mem hc
        rw [List.mem_reverse] at hf
        exact ⟨f, ((h.cold f).1 hf.1).1, hf.2⟩
      · have hf := scan_mem hw
        rw [List.mem_reverse] at hf
        exact ⟨f, ((h.warm f).1 hf.1).1, hf.2⟩
    · rintro ⟨f, hf, he⟩
      rcases Evict_defined h with ⟨-, h0⟩ | ⟨g, hg, -⟩ | ⟨g, hg, -⟩
      · have := h.size_pos he
        have := h0 f hf he
        omega
      · exact ⟨_, g, hg⟩
      · exact ⟨_, g, hg⟩
  refine ⟨fun h0 => Evict_zero h0, hsome, ?_, ?_⟩
  · intro hno
    rcases Evict_defined h with ⟨h1, -⟩ | ⟨g, hg, -⟩ | ⟨g, hg, -⟩
    · exact h1
    · exact absurd (hsome.1 ⟨_, g, hg⟩) hno
    · exact absurd (hsome.1 ⟨_, g, hg⟩) hno
  · rintro ⟨s', f, he⟩
    exact Nat.pos_of_ne_zero (Evict_ok_some he).1

/-- Witness of C6 (amended) on the scenario state, where frames 1 and 2 are
tracked and evictable and `Evict` returns frame 2. -/
theorem C6_witness :
    (Evict scenarioState).ret = some (some 2) ∧
    ((Size scenarioState = 0 → Evict scenarioState = .ok scenarioState none) ∧
     ((∃ s' f, Evict scenarioState = .ok s' (some f)) ↔
        ∃ f, 0 < scenarioState.access_count_ f ∧ scenarioState.evict_map_ f = true) ∧
     ((¬ ∃ f, 0 < scenarioState.access_count_ f ∧ scenarioState.evict_map_ f = true) →
        Evict scenarioState = .ok scenarioState none) ∧
     ((∃ s' f, Evict scenarioState = .ok s' (some f)) → 0 < Size scenarioState)) :=
  ⟨by decide, C6_evict_returns_iff_tracked_evictable 7 2 scenarioState scenarioState_reachable⟩

/-- C7, counterexample: after `SetEvictable(0, true)` on a fresh replacer
`curr_size_` is 1 while both queues are empty, so no queue entry is flagged. -/
theorem C7_counterexample :
    Reachable 7 2 untrackedFlagState ∧ untrackedFlagState.curr_size_ = 1 ∧
    queueEvictableCount untrackedFlagState = 0 ∧
    untrackedFlagState.curr_size_ ≠ queueEvictableCount untrackedFlagState :=
  ⟨untrackedFlagState_reachable, by decide, by decide, by decide⟩

/-- C7, amended: in every reachable state `curr_size_` (the value of `Size()`)
equals the number of entries across the Cold and Warm Queues whose flag is
`true` plus the number of frames without recorded access whose flag is `true`;
so it equals the number of flagged queue entries exactly when no untracked frame
is flagged, in particular when every flagged frame is tracked. -/
theorem C7_size_counts_queue_entries_and_untracked (n k : Nat) (s : LRUKReplacer)
    (hr : Reachable n k s) :
    s.curr_size_ = queueEvictableCount s + untrackedEvictableCount s ∧
    (s.curr_size_ = queueEvictableCount s ↔ untrackedEvictableCount s = 0) ∧
    ((∀ f, s.evict_map_ f = true → 0 < s.access_count_ f) →
      s.curr_size_ = queueEvictableCount s) := by
  have h := hr.inv
  have hsplit := h.size_split
  refine ⟨hsplit, by omega, ?_⟩
  intro hall
  have h0 : untrackedEvictableCount s = 0 := by
    unfold untrackedEvictableCount countTrue
    rw [Finset.card_eq_zero, Finset.filter_eq_empty_iff]
    intro f _
    simp only [Bool.and_eq_true, decide_eq_true_eq, not_and]
    intro he
    exact (hall f he).ne'
  omega

/-- Witness of C7 (amended) on the scenario state: two flagged queue entries,
`curr_size_ = 2`. -/
theorem C7_witness :
    scenarioState.curr_size_ = 2 ∧ queueEvictableCount scenarioState = 2 ∧
    (scenarioState.curr_size_
        = queueEvictableCount scenarioState + untrackedEvictableCount scenarioState ∧
     (scenarioState.curr_size_ = queueEvictableCount scenarioState ↔
        untrackedEvictableCount scenarioState = 0) ∧
     ((∀ f, scenarioState.evict_map_ f = true → 0 < scenarioState.access_count_ f) →
        scenarioState.curr_size_ = queueEvictableCount scenarioState)) :=
  ⟨by decide, by decide,
    C7_size_counts_queue_entries_and_untracked 7 2 scenarioState scenarioState_reachable⟩

/-- C8, the code at the failing inputs: on a replacer of capacity 7 the handle 7
(equal to the capacity) and the negative handle -1 are both accepted by
`RecordAccess`, which records the access and queues the frame, while the handle
8 is rejected with the state unchanged. -/
theorem C8_record_access_accepts_capacity_and_negative :
    (RecordAccess (LRUKReplacer.new 7 2) 7).ret = some () ∧
    (RecordAccess (LRUKReplacer.new 7 2) 7).after.map
        (fun s => (s.node_list_, s.access_count_ 7)) = some ([7], 1) ∧
    (RecordAccess (LRUKReplacer.new 7 2) (-1)).ret = some () ∧
    (RecordAccess (LRUKReplacer.new 7 2) (-1)).after.map
        (fun s => (s.node_list_, s.access_count_ (-1))) = some ([-1], 1) ∧
    RecordAccess (LRUKReplacer.new 7 2) 8 = .exception (LRUKReplacer.new 7 2) :=
  ⟨by decide, by decide, by decide, by decide, rfl⟩

/-- C9: in every reachable state `Remove(f)` throws exactly when `f` is tracked
(access count above 0) and its flag is `false`; when it throws, and when `f` has
access count 0 (where it returns normally), the state is left as it was; and it
never runs into an erase through a missing position-map entry. -/
theorem C9_remove_fails_iff_tracked_not_evictable (n k : Nat) (s : LRUKReplacer)
    (f : frame_id_t) (hr : Reachable n k s) :
    ((∃ s', Remove s f = .exception s') ↔
      (0 < s.access_count_ f ∧ s.evict_map_ f = false)) ∧
    (∀ s', Remove s f = .exception s' → s' = s) ∧
    (s.access_count_ f = 0 → Remove s f = .ok s ()) ∧
    Remove s f ≠ .undefined := by
  have h := hr.inv
  refine ⟨?_, ?_, ?_, ?_⟩
  · constructor
    · rintro ⟨s', hs'⟩
      have := Remove_exception.1 hs'
      exact ⟨Nat.pos_of_ne_zero this.2.1, this.2.2⟩
    · rintro ⟨h1, h2⟩
      exact ⟨s, Remove_exception.2 ⟨rfl, h1.ne', h2⟩⟩
  · intro s' hs'
    exact (Remove_exception.1 hs').1
  · intro h0
    unfold Remove
    simp only [h0, if_true]
  · unfold Remove
    simp only
    split_ifs with h0 he hk hs hs
    · simp
    · simp
    · simp
    · exact absurd ((h.node_keys f).2 ((h.cold f).2 ⟨Nat.pos_of_ne_zero h0, hk⟩)) hs
    · simp
    · exact absurd ((h.buffer_keys f).2
        ((h.warm f).2 ⟨Nat.pos_of_ne_zero h0, by omega⟩)) hs

/-- Witness of C9: frame 1 accessed once and not marked evictable; `Remove(1)`
throws and leaves the state unchanged, `Remove(3)` on the untracked frame 3
returns with the state unchanged. -/
theorem C9_witness :
    Remove pinnedState 1 = .exception pinnedState ∧
    Remove pinnedState 3 = .ok pinnedState () ∧
    (((∃ s', Remove pinnedState 1 = .exception s') ↔
        (0 < pinnedState.access_count_ 1 ∧ pinnedState.evict_map_ 1 = false)) ∧
     (∀ s', Remove pinnedState 1 = .exception s' → s' = pinnedState) ∧
     (pinnedState.access_count_ 1 = 0 → Remove pinnedState 1 = .ok pinnedState ()) ∧
     Remove pinnedState 1 ≠ .undefined) :=
  ⟨rfl, rfl, C9_remove_fails_iff_tracked_not_evictable 7 2 pinnedState 1 pinnedState_reachable⟩

/-- C10, the code at the failing input: with `K = 1` the fresh replacer is a
reachable state in which frame 0 is untracked and not flagged, and the first
`RecordAccess(0)` brings the count to `K` and erases from the Cold Queue through
the missing `node_store_` entry (undefined behaviour), so the sequence
`RecordAccess(0)`, `SetEvictable(0, true)`, `Remove(0)` yields no state at all.
For `K ≥ 2` the round trip does hold (`round_trip_of_two_le_k`). -/
theorem C10_round_trip_undefined_for_k_one :
    Reachable 7 1 (LRUKReplacer.new 7 1) ∧
    (LRUKReplacer.new 7 1).access_count_ 0 = 0 ∧
    (LRUKReplacer.new 7 1).evict_map_ 0 = false ∧
    RecordAccess (LRUKReplacer.new 7 1) 0 = .undefined ∧
    run (LRUKReplacer.new 7 1) [.RecordAccess 0, .SetEvictable 0 true, .Remove 0] = none :=
  ⟨⟨[], by simp, rfl⟩, rfl, rfl, rfl, rfl⟩

/-- C11: in every reachable state in which `Evict` returns a frame `f`: before
the call `f` was tracked with its flag set; after the call `f` is in neither
queue, its access count is 0, its flag is `false`, `Size()` has gone down by
exactly 1, and every other frame keeps its access count and its flag, both
queues being the old ones with `f` taken out.  A `RecordAccess(f)` made next
reintroduces `f` as a fresh entry: count 1, not evictable, at the newest end of
the Cold Queue. -/
theorem C11_evict_removes_the_returned_frame (n k : Nat) (s s' : LRUKReplacer)
    (f : frame_id_t) (hr : Reachable n k s) (he : Evict s = .ok s' (some f)) :
    (0 < s.access_count_ f ∧ s.evict_map_ f = true) ∧
    (f ∉ s'.node_list_ ∧ f ∉ s'.buffer_list_ ∧
      s'.access_count_ f = 0 ∧ s'.evict_map_ f = false ∧
      Size s' + 1 = Size s ∧
      (∀ g, g ≠ f →
        s'.access_count_ g = s.access_count_ g ∧ s'.evict_map_ g = s.evict_map_ g) ∧
      s'.node_list_ = s.node_list_.filter (fun x => x != f) ∧
      s'.buffer_list_ = s.buffer_list_.filter (fun x => x != f)) ∧
    (∃ s'', RecordAccess s' f = .ok s'' () ∧
      s''.access_count_ f = 1 ∧ s''.evict_map_ f = false ∧
      s''.node_list_ = f :: s'.node_list_ ∧ s''.buffer_list_ = s'.buffer_list_ ∧
      Size s'' = Size s') := by
  have h := hr.inv
  obtain ⟨-, hcase⟩ := Evict_ok_some he
  have hmem : (f ∈ s.node_list_ ∧ s' = dropCold s f) ∨
      (f ∈ s.buffer_list_ ∧ s' = dropWarm s f) := by
    rcases hcase with ⟨hc, -, e⟩ | ⟨-, hw, -, e⟩
    · exact Or.inl ⟨by simpa using (scan_mem hc).1, e⟩
    · exact Or.inr ⟨by simpa using (scan_mem hw).1, e⟩
  have hflag : s.evict_map_ f = true := by
    rcases hcase with ⟨hc, -, -⟩ | ⟨-, hw, -, -⟩
    · exact (scan_mem hc).2
    · exact (scan_mem hw).2
  have htr : 0 < s.access_count_ f := by
    rcases hmem with ⟨hm, -⟩ | ⟨hm, -⟩
    · exact ((h.cold f).1 hm).1
    · exact ((h.warm f).1 hm).1
  have heff := inv_drop_effects h hflag hmem
  refine ⟨⟨htr, hflag⟩, heff, ?_⟩
  -- the access made next
  have h' : Inv n k s' := inv_evict h he
  have hk2 : 2 ≤ k := two_le_k_of_tracked hr htr
  have hcnt : s'.access_count_ f = 0 := heff.2.2.1
  have hns : s'.node_store_ f = false := by
    cases hx : s'.node_store_ f with
    | false => rfl
    | true => exact absurd ((h'.node_keys f).1 hx) heff.1
  have hv : ¬ f > static_cast_int s'.replacer_size_ := by
    rw [h'.size_eq, ← h.size_eq]
    exact h.accepted f htr
  have hra := RecordAccess_first hv (by rw [h'.k_eq]; exact hk2) hcnt hns
  refine ⟨_, hra, ?_⟩
  have hk' : 1 < s'.k_ := by rw [h'.k_eq]; omega
  simp only [afterAccesses, if_pos hk', assign_same, Size, true_and, and_true]
  exact heff.2.2.2.1

/-- Witness of C11 on the scenario state: `Evict` returns frame 2 from the Cold
Queue. -/
theorem C11_witness :
    Evict scenarioState = .ok (dropCold scenarioState 2) (some 2) ∧
    ((0 < scenarioState.access_count_ 2 ∧ scenarioState.evict_map_ 2 = true) ∧
     (2 ∉ (dropCold scenarioState 2).node_list_ ∧ 2 ∉ (dropCold scenarioState 2).buffer_list_ ∧
       (dropCold scenarioState 2).access_count_ 2 = 0 ∧
       (dropCold scenarioState 2).evict_map_ 2 = false ∧
       Size (dropCold scenarioState 2) + 1 = Size scenarioState ∧
       (∀ g, g ≠ 2 →
         (dropCold scenarioState 2).access_count_ g = scenarioState.access_count_ g ∧
         (dropCold scenarioState 2).evict_map_ g = scenarioState.evict_map_ g) ∧
       (dropCold scenarioState 2).node_list_
         = scenarioState.node_list_.filter (fun x => x != 2) ∧
       (dropCold scenarioState 2).buffer_list_
         = scenarioState.buffer_list_.filter (fun x => x != 2)) ∧
     (∃ s'', RecordAccess (dropCold scenarioState 2) 2 = .ok s'' () ∧
       s''.access_count_ 2 = 1 ∧ s''.evict_map_ 2 = false ∧
       s''.node_list_ = 2 :: (dropCold scenarioState 2).node_list_ ∧
       s''.buffer_list_ = (dropCold scenarioState 2).buffer_list_ ∧
       Size s'' = Size (dropCold scenarioState 2))) :=
  ⟨rfl, C11_evict_removes_the_returned_frame 7 2 scenarioState (dropCold scenarioState 2) 2
    scenarioState_reachable rfl⟩

/-- C12: for `K ≥ 1`, in every reachable state and for every frame `f` that is
tracked and evictable, `Remove(f)` returns normally and afterwards `f` is in
neither queue, its access count is 0, its flag is `false`, `Size()` has gone down
by exactly 1, and every other frame keeps its access count and its flag, both
queues being the old ones with `f` taken out.  The queue chosen by the test
`count < k_` is the one that holds `f`.  (The property needs no assumption on
`K`.) -/
theorem C12_remove_drops_a_tracked_evictable_frame (n k : Nat) (s : LRUKReplacer)
    (f : frame_id_t) (hr : Reachable n k s) (ht : 0 < s.access_count_ f)
    (he : s.evict_map_ f = true) :
    (s.access_count_ f < k → f ∈ s.node_list_) ∧
    (¬ s.access_count_ f < k → f ∈ s.buffer_list_) ∧
    ∃ s', Remove s f = .ok s' () ∧
      f ∉ s'.node_list_ ∧ f ∉ s'.buffer_list_ ∧
      s'.access_count_ f = 0 ∧ s'.evict_map_ f = false ∧
      Size s' + 1 = Size s ∧
      (∀ g, g ≠ f →
        s'.access_count_ g = s.access_count_ g ∧ s'.evict_map_ g = s.evict_map_ g) ∧
      s'.node_list_ = s.node_list_.filter (fun x => x != f) ∧
      s'.buffer_list_ = s.buffer_list_.filter (fun x => x != f) := by
  have h := hr.inv
  have hk := h.k_eq
  have hc : s.access_count_ f < k → f ∈ s.node_list_ :=
    fun hlt => (h.cold f).2 ⟨ht, by rw [hk]; exact hlt⟩
  have hw : ¬ s.access_count_ f < k → f ∈ s.buffer_list_ :=
    fun hge => (h.warm f).2 ⟨ht, by rw [hk]; omega⟩
  refine ⟨hc, hw, ?_⟩
  have hne : ¬ (!s.evict_map_ f) = true := by simp [he]
  have h0 : ¬ s.access_count_ f = 0 := by omega
  by_cases hlt : s.access_count_ f < k
  · have hm := hc hlt
    have hs : (f ∈ s.node_list_ ∧ dropCold s f = dropCold s f) ∨
        (f ∈ s.buffer_list_ ∧ dropCold s f = dropWarm s f) := Or.inl ⟨hm, rfl⟩
    refine ⟨dropCold s f, ?_, inv_drop_effects h he hs⟩
    unfold Remove
    simp only
    have hlt' : s.access_count_ f < s.k_ := by rw [hk]; exact hlt
    rw [if_neg h0, if_neg hne, if_pos hlt', if_pos ((h.node_keys f).2 hm)]
    rfl
  · have hm := hw hlt
    have hs : (f ∈ s.node_list_ ∧ dropWarm s f = dropCold s f) ∨
        (f ∈ s.buffer_list_ ∧ dropWarm s f = dropWarm s f) := Or.inr ⟨hm, rfl⟩
    refine ⟨dropWarm s f, ?_, inv_drop_effects h he hs⟩
    unfold Remove
    simp only
    have hlt' : ¬ s.access_count_ f < s.k_ := by rw [hk]; exact hlt
    rw [if_neg h0, if_neg hne, if_neg hlt', if_pos ((h.buffer_keys f).2 hm)]
    rfl

/-- Witness of C12 on the scenario state: `Remove(1)` takes frame 1 (two accesses,
`K = 2`) out of the Warm Queue. -/
theorem C12_witness :
    Remove scenarioState 1 = .ok (dropWarm scenarioState 1) () ∧
    ((scenarioState.access_count_ 1 < 2 → 1 ∈ scenarioState.node_list_) ∧
     (¬ scenarioState.access_count_ 1 < 2 → 1 ∈ scenarioState.buffer_list_) ∧
     ∃ s', Remove scenarioState 1 = .ok s' () ∧
       1 ∉ s'.node_list_ ∧ 1 ∉ s'.buffer_list_ ∧
       s'.access_count_ 1 = 0 ∧ s'.evict_map_ 1 = false ∧
       Size s' + 1 = Size scenarioState ∧
       (∀ g, g ≠ 1 →
         s'.access_count_ g = scenarioState.access_count_ g ∧
         s'.evict_map_ g = scenarioState.evict_map_ g) ∧
       s'.node_list_ = scenarioState.node_list_.filter (fun x => x != 1) ∧
       s'.buffer_list_ = scenarioState.buffer_list_.filter (fun x => x != 1)) :=
  ⟨rfl, C12_remove_drops_a_tracked_evictable_frame 7 2 scenarioState 1
    scenarioState_reachable (by decide) (by decide)⟩

/-- C13: in every reachable state, for every frame `f` and boolean `b`,
`SetEvictable(f, b)` changes `Size()` by +1 when the flag of `f` goes from
`false` to `true`, by -1 when it goes from `true` to `false`, and leaves it
alone when `b` is the current flag.  Applying `SetEvictable(f, b)` twice in a
row gives the same state as applying it once (this part holds in any state), so
two consecutive `SetEvictable(f, true)` raise `Size()` by at most 1. -/
theorem C13_set_evictable_counts_transitions (n k : Nat) (s : LRUKReplacer)
    (f : frame_id_t) (b : Bool) (hr : Reachable n k s) :
    (s.evict_map_ f = false → b = true → Size (SetEvictable s f b) = Size s + 1) ∧
    (s.evict_map_ f = true → b = false → Size (SetEvictable s f b) + 1 = Size s) ∧
    (s.evict_map_ f = b → Size (SetEvictable s f b) = Size s) ∧
    SetEvictable (SetEvictable s f b) f b = SetEvictable s f b ∧
    Size (SetEvictable (SetEvictable s f true) f true) ≤ Size s + 1 := by
  have h := hr.inv
  have hle := h.size_le
  have hup : s.evict_map_ f = false → Size (SetEvictable s f true) = Size s + 1 := by
    intro he
    rw [Size_eq, Size_eq, SetEvictable_curr_size, if_neg (by simp [he]), if_pos rfl,
      inc64_of_lt (by omega)]
  have hsame : ∀ c, s.evict_map_ f = c → Size (SetEvictable s f c) = Size s := by
    intro c he
    rw [Size_eq, Size_eq, SetEvictable_curr_size, if_pos he]
  refine ⟨?_, ?_, hsame b, SetEvictable_idem s f b, ?_⟩
  · intro he hb
    subst hb
    exact hup he
  · intro he hb
    subst hb
    have hpos := h.size_pos he
    have hne : ¬ s.evict_map_ f = false := by simp [he]
    have hff : ¬ false = true := by simp
    rw [Size_eq, Size_eq, SetEvictable_curr_size, if_neg hne, if_neg hff,
      dec64_of_pos hpos (by omega)]
    omega
  · rw [SetEvictable_idem]
    cases he : s.evict_map_ f with
    | false => rw [hup he]
    | true => rw [hsame true he]; omega

/-- Witness of C13: frame 1 is tracked and not flagged in `pinnedState`
(`Size() = 0`); `SetEvictable(1, true)` gives `Size() = 1`, and so does a second
call. -/
theorem C13_witness :
    Size pinnedState = 0 ∧ Size (SetEvictable pinnedState 1 true) = 1 ∧
    Size (SetEvictable (SetEvictable pinnedState 1 true) 1 true) = 1 ∧
    ((pinnedState.evict_map_ 1 = false → true = true →
        Size (SetEvictable pinnedState 1 true) = Size pinnedState + 1) ∧
     (pinnedState.evict_map_ 1 = true → true = false →
        Size (SetEvictable pinnedState 1 true) + 1 = Size pinnedState) ∧
     (pinnedState.evict_map_ 1 = true →
        Size (SetEvictable pinnedState 1 true) = Size pinnedState) ∧
     SetEvictable (SetEvictable pinnedState 1 true) 1 true = SetEvictable pinnedState 1 true ∧
     Size (SetEvictable (SetEvictable pinnedState 1 true) 1 true) ≤ Size pinnedState + 1) :=
  ⟨by decide, by decide, by decide,
    C13_set_evictable_counts_transitions 7 2 pinnedState 1 true pinnedState_reachable⟩

/-- C14: queue-membership invariant.  For `K ≥ 1`, in every reachable state a
frame is in a queue iff its access count is positive; a frame with
`0 < count < K` occurs exactly once in the Cold Queue and not in the Warm Queue;
a frame with `count ≥ K` occurs exactly once in the Warm Queue and not in the
Cold Queue; and the keys of `node_store_` and `buffer_store_` are exactly the
frames of their queue. -/
theorem C14_queue_membership (n k : Nat) (s : LRUKReplacer) (hk : 1 ≤ k)
    (hr : Reachable n k s) :
    (∀ f, (f ∈ s.node_list_ ∨ f ∈ s.buffer_list_) ↔ 0 < s.access_count_ f) ∧
    (∀ f, 0 < s.access_count_ f → s.access_count_ f < k →
      s.node_list_.count f = 1 ∧ f ∉ s.buffer_list_) ∧
    (∀ f, k ≤ s.access_count_ f → s.buffer_list_.count f = 1 ∧ f ∉ s.node_list_) ∧
    (∀ f, s.node_store_ f = true ↔ f ∈ s.node_list_) ∧
    (∀ f, s.buffer_store_ f = true ↔ f ∈ s.buffer_list_) := by
  have h := hr.inv
  have hke := h.k_eq
  refine ⟨?_, ?_, ?_, h.node_keys, h.buffer_keys⟩
  · intro f
    rw [← List.mem_append]
    exact h.mem_queues f
  · intro f h1 h2
    refine ⟨List.count_eq_one_of_mem h.node_nodup ((h.cold f).2 ⟨h1, by omega⟩), ?_⟩
    intro hw
    have := (h.warm f).1 hw
    omega
  · intro f h1
    refine ⟨List.count_eq_one_of_mem h.buffer_nodup ((h.warm f).2 ⟨by omega, by omega⟩), ?_⟩
    intro hc
    have := (h.cold f).1 hc
    omega

/-- Witness of C14 on the scenario state (`node_list_ = [2]`, `buffer_list_ = [1]`). -/
theorem C14_witness :
    scenarioState.node_list_ = [2] ∧ scenarioState.buffer_list_ = [1] ∧
    ((∀ f, (f ∈ scenarioState.node_list_ ∨ f ∈ scenarioState.buffer_list_) ↔
        0 < scenarioState.access_count_ f) ∧
     (∀ f, 0 < scenarioState.access_count_ f → scenarioState.access_count_ f < 2 →
        scenarioState.node_list_.count f = 1 ∧ f ∉ scenarioState.buffer_list_) ∧
     (∀ f, 2 ≤ scenarioState.access_count_ f →
        scenarioState.buffer_list_.count f = 1 ∧ f ∉ scenarioState.node_list_) ∧
     (∀ f, scenarioState.node_store_ f = true ↔ f ∈ scenarioState.node_list_) ∧
     (∀ f, scenarioState.buffer_store_ f = true ↔ f ∈ scenarioState.buffer_list_)) :=
  ⟨by decide, by decide,
    C14_queue_membership 7 2 scenarioState (by decide) scenarioState_reachable⟩

/-- C15: in every reachable state, a `RecordAccess(f)` that returns normally
raises the access count of `f` by exactly 1 and leaves every other count, every
flag and `Size()` as they were.  If the new count is below `K` and `f` was
untracked, `f` is put at the newest end of the Cold Queue; if the new count is
below `K` and `f` was tracked, both queues are unchanged; if the new count
equals `K`, `f` leaves the Cold Queue and is put at the most-recently-used end of
the Warm Queue; if the new count exceeds `K`, `f` is moved to the
most-recently-used end of the Warm Queue.  The other frames keep their order.
For `K ≥ 2` every call on an accepted handle does return normally. -/
theorem C15_record_access_effects (n k : Nat) (s : LRUKReplacer) (f : frame_id_t)
    (hr : Reachable n k s) :
    (∀ s', RecordAccess s f = .ok s' () →
      s'.access_count_ f = s.access_count_ f + 1 ∧
      (∀ g, g ≠ f → s'.access_count_ g = s.access_count_ g) ∧
      s'.evict_map_ = s.evict_map_ ∧ Size s' = Size s ∧
      (s'.access_count_ f < k → s.access_count_ f = 0 →
        s'.node_list_ = f :: s.node_list_ ∧ s'.buffer_list_ = s.buffer_list_) ∧
      (s'.access_count_ f < k → 0 < s.access_count_ f →
        s'.node_list_ = s.node_list_ ∧ s'.buffer_list_ = s.buffer_list_) ∧
      (s'.access_count_ f = k →
        f ∈ s.node_list_ ∧ s'.node_list_ = s.node_list_.filter (fun x => x != f) ∧
        s'.buffer_list_ = f :: s.buffer_list_) ∧
      (k < s'.access_count_ f →
        s'.node_list_ = s.node_list_ ∧ f ∈ s.buffer_list_ ∧
        s'.buffer_list_ = f :: s.buffer_list_.filter (fun x => x != f))) ∧
    (2 ≤ k → ¬ f > static_cast_int n → ∃ s', RecordAccess s f = .ok s' ()) := by
  have h := hr.inv
  have hke := h.k_eq
  refine ⟨?_, fun hk hv => RecordAccess_defined h hk hv⟩
  intro s' hs'
  obtain ⟨-, hcase⟩ := RecordAccess_ok hs'
  have hother : ∀ g, g ≠ f → bump s f g = s.access_count_ g := by
    intro g hg; simp [bump, hg]
  have hself : bump s f f = s.access_count_ f + 1 := by simp [bump]
  rcases hcase with ⟨hk, hs, rfl⟩ | ⟨hk, hs, rfl⟩ | ⟨hk, hs, rfl⟩ | ⟨hk, hs, rfl⟩
  · have hm : f ∈ s.node_list_ := (h.node_keys f).1 hs
    refine ⟨hself, hother, rfl, rfl, ?_, ?_, ?_, ?_⟩
    · intro h1; simp only [hself] at h1; omega
    · intro h1; simp only [hself] at h1; omega
    · intro _
      exact ⟨hm, h.node_nodup.erase_eq_filter f, rfl⟩
    · intro h1; simp only [hself] at h1; omega
  · have hnm : f ∉ s.node_list_ := fun hm => by
      have := (h.node_keys f).2 hm
      rw [hs] at this
      exact absurd this (by simp)
    refine ⟨hself, hother, rfl, rfl, ?_, ?_, ?_, ?_⟩
    · intro _ _; exact ⟨rfl, rfl⟩
    · intro _ h2
      exact absurd ((h.cold f).2 ⟨h2, by omega⟩) hnm
    · intro h1; simp only [hself] at h1; omega
    · intro h1; simp only [hself] at h1; omega
  · have hm : f ∈ s.node_list_ := (h.node_keys f).1 hs
    have hc := (h.cold f).1 hm
    refine ⟨hself, hother, rfl, rfl, ?_, ?_, ?_, ?_⟩
    · intro _ h2; omega
    · intro _ _; exact ⟨rfl, rfl⟩
    · intro h1; simp only [hself] at h1; omega
    · intro h1; simp only [hself] at h1; omega
  · have hm : f ∈ s.buffer_list_ := (h.buffer_keys f).1 hs
    refine ⟨hself, hother, rfl, rfl, ?_, ?_, ?_, ?_⟩
    · intro h1; simp only [hself] at h1; omega
    · intro h1; simp only [hself] at h1; omega
    · intro h1; simp only [hself] at h1; omega
    · intro _
      refine ⟨rfl, hm, ?_⟩
      show f :: s.buffer_list_.erase f = f :: s.buffer_list_.filter (fun x => x != f)
      rw [h.buffer_nodup.erase_eq_filter f]

/-- Witness of C15 on `pinnedState` (`K = 2`, frame 1 accessed once): the second
access of frame 1 brings its count to `K` and moves it from the Cold Queue to
the front of the Warm Queue. -/
theorem C15_witness :
    ((RecordAccess pinnedState 1).after.map
        (fun s => (s.access_count_ 1, s.node_list_, s.buffer_list_))) = some (2, [], [1]) ∧
    ((∀ s', RecordAccess pinnedState 1 = .ok s' () →
      s'.access_count_ 1 = pinnedState.access_count_ 1 + 1 ∧
      (∀ g, g ≠ 1 → s'.access_count_ g = pinnedState.access_count_ g) ∧
      s'.evict_map_ = pinnedState.evict_map_ ∧ Size s' = Size pinnedState ∧
      (s'.access_count_ 1 < 2 → pinnedState.access_count_ 1 = 0 →
        s'.node_list_ = 1 :: pinnedState.node_list_ ∧
        s'.buffer_list_ = pinnedState.buffer_list_) ∧
      (s'.access_count_ 1 < 2 → 0 < pinnedState.access_count_ 1 →
        s'.node_list_ = pinnedState.node_list_ ∧ s'.buffer_list_ = pinnedState.buffer_list_) ∧
      (s'.access_count_ 1 = 2 →
        1 ∈ pinnedState.node_list_ ∧
        s'.node_list_ = pinnedState.node_list_.filter (fun x => x != 1) ∧
        s'.buffer_list_ = 1 :: pinnedState.buffer_list_) ∧
      (2 < s'.access_count_ 1 →
        s'.node_list_ = pinnedState.node_list_ ∧ 1 ∈ pinnedState.buffer_list_ ∧
        s'.buffer_list_ = 1 :: pinnedState.buffer_list_.filter (fun x => x != 1))) ∧
     (2 ≤ 2 → ¬ (1 : frame_id_t) > static_cast_int 7 →
        ∃ s', RecordAccess pinnedState 1 = .ok s' ())) :=
  ⟨by decide, C15_record_access_effects 7 2 pinnedState 1 pinnedState_reachable⟩

/-- C16: `SetEvictable` never loses history.  In every reachable state, for every
frame `f` and boolean `b`, `SetEvictable(f, b)` leaves every access count, both
queues and both position maps unchanged and changes no flag other than that of
`f`, which becomes `b`.  Hence for an evictable `f`, `SetEvictable(f, false)`
followed by `SetEvictable(f, true)` restores exactly the original state, so `f`
keeps its place in the eviction order (`Evict` behaves as on the original). -/
theorem C16_set_evictable_keeps_history (n k : Nat) (s : LRUKReplacer) (f : frame_id_t)
    (b : Bool) (hr : Reachable n k s) :
    (SetEvictable s f b).access_count_ = s.access_count_ ∧
    (SetEvictable s f b).node_list_ = s.node_list_ ∧
    (SetEvictable s f b).buffer_list_ = s.buffer_list_ ∧
    (SetEvictable s f b).node_store_ = s.node_store_ ∧
    (SetEvictable s f b).buffer_store_ = s.buffer_store_ ∧
    (∀ g, g ≠ f → (SetEvictable s f b).evict_map_ g = s.evict_map_ g) ∧
    (SetEvictable s f b).evict_map_ f = b ∧
    (s.evict_map_ f = true →
      SetEvictable (SetEvictable s f false) f true = s ∧
      Evict (SetEvictable (SetEvictable s f false) f true) = Evict s) := by
  have h := hr.inv
  refine ⟨by rw [SetEvictable_eq], by rw [SetEvictable_eq], by rw [SetEvictable_eq],
    by rw [SetEvictable_eq], by rw [SetEvictable_eq], ?_, ?_, ?_⟩
  · intro g hg
    rw [SetEvictable_evict_map, assign_ne _ _ hg]
  · rw [SetEvictable_evict_map, assign_same]
  · intro he
    have hpos := h.size_pos he
    have hle := h.size_le
    have hback : SetEvictable (SetEvictable s f false) f true = s := by
      have hne : ¬ s.evict_map_ f = false := by simp [he]
      have hft : ¬ false = true := by simp
      rw [SetEvictable_eq (SetEvictable s f false) f true, SetEvictable_evict_map,
        SetEvictable_curr_size, assign_same, assign_assign, if_neg hft, if_pos rfl,
        if_neg hne, if_neg hft, inc64_dec64 hpos (by omega), assign_eq_self _ _ _ he]
      rw [SetEvictable_eq s f false]
    exact ⟨hback, by rw [hback]⟩

/-- Witness of C16 on the scenario state, where frame 2 is tracked and evictable. -/
theorem C16_witness :
    scenarioState.evict_map_ 2 = true ∧
    ((SetEvictable scenarioState 2 false).access_count_ = scenarioState.access_count_ ∧
     (SetEvictable scenarioState 2 false).node_list_ = scenarioState.node_list_ ∧
     (SetEvictable scenarioState 2 false).buffer_list_ = scenarioState.buffer_list_ ∧
     (SetEvictable scenarioState 2 false).node_store_ = scenarioState.node_store_ ∧
     (SetEvictable scenarioState 2 false).buffer_store_ = scenarioState.buffer_store_ ∧
     (∀ g, g ≠ 2 →
        (SetEvictable scenarioState 2 false).evict_map_ g = scenarioState.evict_map_ g) ∧
     (SetEvictable scenarioState 2 false).evict_map_ 2 = false ∧
     (scenarioState.evict_map_ 2 = true →
        SetEvictable (SetEvictable scenarioState 2 false) 2 true = scenarioState ∧
        Evict (SetEvictable (SetEvictable scenarioState 2 false) 2 true)
          = Evict scenarioState)) :=
  ⟨by decide,
    C16_set_evictable_keeps_history 7 2 scenarioState 2 false scenarioState_reachable⟩

/-- C17: once Warm, never Cold again.  For `K ≥ 1`, in every reachable state in
which the access count of `F` has reached `K`, `F` is in the Warm Queue and not
in the Cold Queue; a `RecordAccess(F)` returns normally, leaves the Cold Queue
untouched and only moves `F` to the front of the Warm Queue; and after any
further sequence of calls none of which removes `F` (a successful `Evict`
returning `F` or a successful `Remove(F)`), the count of `F` is still at least
`K` and `F` is still in the Warm Queue and not in the Cold Queue. -/
theorem C17_once_warm_never_cold (n k : Nat) (s : LRUKReplacer) (F : frame_id_t)
    (hk : 1 ≤ k) (hr : Reachable n k s) (hF : k ≤ s.access_count_ F) :
    (F ∈ s.buffer_list_ ∧ F ∉ s.node_list_) ∧
    (∃ s', RecordAccess s F = .ok s' () ∧
      s'.node_list_ = s.node_list_ ∧ F ∉ s'.node_list_ ∧
      s'.buffer_list_ = F :: s.buffer_list_.filter (fun x => x != F) ∧
      k ≤ s'.access_count_ F) ∧
    (∀ ops s', (∀ op ∈ ops, op.wf) → run s ops = some s' → keptAlong F s ops = true →
      k ≤ s'.access_count_ F ∧ F ∈ s'.buffer_list_ ∧ F ∉ s'.node_list_) := by
  have h := hr.inv
  have hke := h.k_eq
  have hwarm : ∀ t : LRUKReplacer, Inv n k t → k ≤ t.access_count_ F →
      F ∈ t.buffer_list_ ∧ F ∉ t.node_list_ := by
    intro t ht hc
    have hkt := ht.k_eq
    refine ⟨(ht.warm F).2 ⟨by omega, by omega⟩, ?_⟩
    intro hm
    have := (ht.cold F).1 hm
    omega
  have hin := hwarm s h hF
  refine ⟨hin, ?_, ?_⟩
  · have hra := RecordAccess_warm (h.accepted F (by omega)) (by omega : s.k_ < s.access_count_ F + 1)
      ((h.buffer_keys F).2 hin.1)
    refine ⟨_, hra, rfl, hin.2, ?_, ?_⟩
    · show F :: s.buffer_list_.erase F = F :: s.buffer_list_.filter (fun x => x != F)
      rw [h.buffer_nodup.erase_eq_filter F]
    · show k ≤ bump s F F
      simp only [bump, assign_same]
      omega
  · intro ops s' hwf hrun hkept
    obtain ⟨hi', hmono⟩ := run_count_mono ops h hwf hrun hkept
    have hc : k ≤ s'.access_count_ F := Nat.le_trans hF hmono
    exact ⟨hc, hwarm s' hi' hc⟩

/-- Witness of C17 on the scenario state, where frame 1 has reached `K = 2`
accesses: after one more access of frame 2 (which joins the Warm Queue), one
more access of frame 1 and one `Evict` (which returns frame 2), frame 1 is still
Warm. -/
theorem C17_witness :
    keptAlong 1 scenarioState [.RecordAccess 2, .RecordAccess 1, .Evict] = true ∧
    ((1 ∈ scenarioState.buffer_list_ ∧ 1 ∉ scenarioState.node_list_) ∧
     (∃ s', RecordAccess scenarioState 1 = .ok s' () ∧
       s'.node_list_ = scenarioState.node_list_ ∧ 1 ∉ s'.node_list_ ∧
       s'.buffer_list_ = 1 :: scenarioState.buffer_list_.filter (fun x => x != 1) ∧
       2 ≤ s'.access_count_ 1) ∧
     (∀ ops s', (∀ op ∈ ops, op.wf) → run scenarioState ops = some s' →
       keptAlong 1 scenarioState ops = true →
       2 ≤ s'.access_count_ 1 ∧ 1 ∈ s'.buffer_list_ ∧ 1 ∉ s'.node_list_)) :=
  ⟨by decide,
    C17_once_warm_never_cold 7 2 scenarioState 1 (by decide) scenarioState_reachable
      (by decide)⟩

/-- C18, the code at the failing input: the body of `Size` contains no
acquisition of `latch_`, unlike the four other member functions.  With one
thread inside `SetEvictable` and another calling `Size`, the schedule in which
the first thread takes `latch_` and the second then runs makes `Size` read
`curr_size_` while `latch_` is held by the other thread.  Between any two of the
four locking member functions no schedule does that. -/
theorem C18_size_does_not_take_the_latch :
    Action.lock ∉ Method.Size.actions ∧
    (∀ m ∈ lockingMethods, m.actions.head? = some Action.lock) ∧
    ((Threads.start .SetEvictable .Size).run [false, true]).map (fun c => c.overlap)
      = some true ∧
    (∀ m1 ∈ lockingMethods, ∀ m2 ∈ lockingMethods, ∀ ts c,
      (Threads.start m1 m2).run ts = some c → c.overlap = false) := by
  refine ⟨by decide, by decide, by decide, ?_⟩
  intro m1 h1 m2 h2 ts c hrun
  exact exclusiveStates_overlap c
    (exclusiveStates_run ts _ (exclusiveStates_start m1 h1 m2 h2) c hrun)

/-- C19, the code at the failing input: on a fresh replacer with `K = 1`,
`RecordAccess(0)` brings the count of frame 0 to exactly `K` while frame 0 is
neither in the Cold Queue nor a key of `node_store_`; the erase through
`node_store_[0]` has no entry to go through, and the call has no defined
outcome.  (For `K ≥ 2` every erase finds its entry: `step_defined_of_two_le_k`.) -/
theorem C19_erase_misses_on_first_access_with_k_one :
    (0 : frame_id_t) ≤ static_cast_int (LRUKReplacer.new 7 1).replacer_size_ ∧
    (LRUKReplacer.new 7 1).access_count_ 0 + 1 = (LRUKReplacer.new 7 1).k_ ∧
    (0 : frame_id_t) ∉ (LRUKReplacer.new 7 1).node_list_ ∧
    (LRUKReplacer.new 7 1).node_store_ 0 = false ∧
    step (LRUKReplacer.new 7 1) (.RecordAccess 0) = none :=
  ⟨by decide, by decide, by decide, by decide, rfl⟩

/-- C20: a failed `Evict` changes nothing.  In every state, if `Evict` returns
without a frame (the output slot `*frame_id` is not written), then the state
after the call is the state before it: same `Size()`, access counts, flags,
queues and position maps. -/
theorem C20_failed_evict_changes_nothing (s : LRUKReplacer)
    (h : (Evict s).ret = some none) :
    Evict s = .ok s none ∧ (Evict s).after = some s := by
  have hok : Evict s = .ok s none := by
    cases he : Evict s with
    | ok s1 r =>
      rw [he] at h
      simp only [Result.ret, Option.some.injEq] at h
      subst h
      rw [(Evict_ok_none he).1]
    | exception s1 => rw [he] at h; simp [Result.ret] at h
    | undefined => rw [he] at h; simp [Result.ret] at h
  exact ⟨hok, by rw [hok]; rfl⟩

/-- Witness of C20: with only the never-accessed frame 0 flagged, `Size()` is 1,
`Evict` finds both queues empty, returns no frame and leaves the state as it
was. -/
theorem C20_witness :
    Size untrackedFlagState = 1 ∧
    (Evict untrackedFlagState = .ok untrackedFlagState none ∧
     (Evict untrackedFlagState).after = some untrackedFlagState) :=
  ⟨by decide, C20_failed_evict_changes_nothing untrackedFlagState (by decide)⟩

end bustub
